import Mathlib

/-!
Verification of the Phoenix IDL generation pipeline.

This file embeds the IDL patch step of `idl/generateIdl.js` (`mutateIdl`), the
path constants of `idl/generateIdl.js` and `idl/generateClient.js`, the event
wiring of the extraction orchestrator, and the control flow of the client
generation driver, and proves or refutes the specified properties.

The schema values that flow through the pipeline are JSON documents: the file
is read with `require` (which parses JSON) and written with
`JSON.stringify(idl, null, 2)`.  Both of those are platform builtins, so the
serializer and parser below are modelled from the spec (canonical two-space
pretty printing, standard JSON parsing); everything else is translated
directly from the repository source.
-/

/-- A JSON value, as produced by parsing a schema file.  Numbers are modelled
as integers: the only numeric values an IDL schema carries are integral
(array sizes, discriminant values), and the floating-point formatting of the
JavaScript runtime coincides with integer formatting on them. -/
inductive Json where
  | null : Json
  | bool : Bool → Json
  | num : Int → Json
  | str : String → Json
  | arr : List Json → Json
  | obj : List (String × Json) → Json

namespace Json

mutual

/-- Equality test on values, written by hand because `Json` nests `List`
(no deriving handler applies); the two list shapes get their own workers. -/
def jeq (a b : Json) : Bool :=
  match a, b with
  | Json.obj ea, Json.obj eb => jeqEntries ea eb
  | Json.arr ea, Json.arr eb => jeqElems ea eb
  | Json.str sa, Json.str sb => sa == sb
  | Json.num na, Json.num nb => na == nb
  | Json.bool ba, Json.bool bb => ba == bb
  | Json.null, Json.null => true
  | _, _ => false

/-- Elementwise equality of two element lists. -/
def jeqElems (a b : List Json) : Bool :=
  match a, b with
  | e1 :: r1, e2 :: r2 => jeq e1 e2 && jeqElems r1 r2
  | [], [] => true
  | _, _ => false

/-- Entrywise equality of two member lists: keys, values and order. -/
def jeqEntries (a b : List (String × Json)) : Bool :=
  match a, b with
  | e1 :: r1, e2 :: r2 => e1.1 == e2.1 && jeq e1.2 e2.2 && jeqEntries r1 r2
  | [], [] => true
  | _, _ => false

end

mutual

theorem jeq_eq_true_iff : ∀ a b : Json, jeq a b = true ↔ a = b
  | Json.null, b => by cases b <;> simp [jeq]
  | Json.bool _, b => by cases b <;> simp [jeq]
  | Json.num _, b => by cases b <;> simp [jeq]
  | Json.str _, b => by cases b <;> simp [jeq]
  | Json.arr ea, b => by cases b <;> simp [jeq, jeqElems_eq_true_iff ea]
  | Json.obj ea, b => by cases b <;> simp [jeq, jeqEntries_eq_true_iff ea]

theorem jeqElems_eq_true_iff : ∀ a b : List Json, jeqElems a b = true ↔ a = b
  | [], b => by cases b <;> simp [jeqElems]
  | e1 :: r1, [] => by simp [jeqElems]
  | e1 :: r1, e2 :: r2 => by
    simp [jeqElems, jeq_eq_true_iff e1 e2, jeqElems_eq_true_iff r1 r2]

theorem jeqEntries_eq_true_iff :
    ∀ a b : List (String × Json), jeqEntries a b = true ↔ a = b
  | [], b => by cases b <;> simp [jeqEntries]
  | e1 :: r1, [] => by simp [jeqEntries]
  | (k1, w1) :: r1, (k2, w2) :: r2 => by
    simp [jeqEntries, jeq_eq_true_iff w1 w2, jeqEntries_eq_true_iff r1 r2, and_assoc]

end

instance : DecidableEq Json := fun a b =>
  decidable_of_iff (jeq a b = true) (jeq_eq_true_iff a b)

instance {α : Type} [DecidableEq α] : DecidableEq (Except Unit α) := fun a b =>
  match a, b with
  | Except.ok x, Except.ok y => decidable_of_iff (x = y) (by simp)
  | Except.error x, Except.error y => decidable_of_iff (x = y) (by simp)
  | Except.ok _, Except.error _ => isFalse (by simp)
  | Except.error _, Except.ok _ => isFalse (by simp)

/-- Property lookup on a parsed JSON object (`o[k]`).  Objects produced by
`JSON.parse` have distinct keys, and lookup returns the first (only) binding. -/
def getField : List (String × Json) → String → Option Json
  | [], _ => none
  | (k', v') :: rest, k => if k' = k then some v' else getField rest k

/-- Property update on a parsed JSON object (`o[k] = v`): the value is
replaced in place if the key is present, appended otherwise. -/
def setField : List (String × Json) → String → Json → List (String × Json)
  | [], k, v => [(k, v)]
  | (k', v') :: rest, k, v =>
    if k' = k then (k', v) :: rest else (k', v') :: setField rest k v

/-- Property access on an arbitrary JSON value: only objects have fields. -/
def jsGet : Json → String → Option Json
  | Json.obj kvs, k => getField kvs k
  | _, _ => none

theorem getField_setField_self (kvs : List (String × Json)) (k : String) (v : Json) :
    getField (setField kvs k v) k = some v := by
  induction kvs with
  | nil => simp [setField, getField]
  | cons kv rest ih =>
    obtain ⟨k', v'⟩ := kv
    by_cases h : k' = k
    · simp [setField, getField, h]
    · simp [setField, getField, h, ih]

theorem getField_setField_ne (kvs : List (String × Json)) (k k' : String) (v : Json)
    (h : k' ≠ k) : getField (setField kvs k v) k' = getField kvs k' := by
  induction kvs with
  | nil => simp [setField, getField, Ne.symm h]
  | cons kv rest ih =>
    obtain ⟨k0, v0⟩ := kv
    by_cases h0 : k0 = k
    · subst h0
      simp [setField, getField, Ne.symm h]
    · simp [setField, getField, h0, ih]

end Json

namespace Json

/-! ## Serialization

Modelled from the spec: `save` "serializes to a canonical pretty-printed form
with stable key ordering".  The serializer in the source is the platform
builtin `JSON.stringify(idl, null, 2)` (generateIdl.js line 163), which is not
part of the repository; the definitions below reproduce its output format:
two-space indentation, `": "` after every key, keys in insertion order, `"`,
`\`, and control characters escaped (short escapes for the common control
characters, `\u00xx` with lowercase hex for the rest). -/

/-- Hex digit characters, lowercase, as `JSON.stringify` emits them. -/
def hexDigit (n : Nat) : Char :=
  match n with
  | 0 => '0' | 1 => '1' | 2 => '2' | 3 => '3' | 4 => '4'
  | 5 => '5' | 6 => '6' | 7 => '7' | 8 => '8' | 9 => '9'
  | 10 => 'a' | 11 => 'b' | 12 => 'c' | 13 => 'd' | 14 => 'e' | _ => 'f'

/-- The expansion of one character inside a quoted JSON string. -/
def escapeChar (c : Char) : List Char :=
  if c = '"' then ['\\', '"']
  else if c = '\\' then ['\\', '\\']
  else if c = '\x08' then ['\\', 'b']
  else if c = '\x09' then ['\\', 't']
  else if c = '\x0a' then ['\\', 'n']
  else if c = '\x0c' then ['\\', 'f']
  else if c = '\x0d' then ['\\', 'r']
  else if c.toNat < 32 then
    ['\\', 'u', '0', '0', hexDigit (c.toNat / 16), hexDigit (c.toNat % 16)]
  else [c]

/-- A quoted, escaped JSON string literal. -/
def quoteString (s : String) : List Char :=
  '"' :: s.data.flatMap escapeChar ++ ['"']

/-- Decimal digit character for a value below ten. -/
def natDigitChar (n : Nat) : Char :=
  match n with
  | 0 => '0' | 1 => '1' | 2 => '2' | 3 => '3' | 4 => '4'
  | 5 => '5' | 6 => '6' | 7 => '7' | 8 => '8' | _ => '9'

/-- Decimal digit string, fuelled so that it reduces by iota alone; `fuel`
bounds the value, so `digitsOfAux (n + 1) n` never runs out. -/
def digitsOfAux : Nat → Nat → List Char
  | 0, _ => []
  | fuel + 1, n =>
    if n < 10 then [natDigitChar n]
    else digitsOfAux fuel (n / 10) ++ [natDigitChar (n % 10)]

/-- Decimal digit string of a natural number, most significant digit first. -/
def digitsOf (n : Nat) : List Char := digitsOfAux (n + 1) n

theorem digitsOfAux_congr : ∀ f1 f2 n, n < f1 → n < f2 →
    digitsOfAux f1 n = digitsOfAux f2 n := by
  intro f1
  induction f1 with
  | zero => omega
  | succ f1 ih =>
    intro f2 n h1 h2
    match f2, h2 with
    | f2 + 1, h2 =>
      by_cases h : n < 10
      · simp [digitsOfAux, h]
      · have hd : n / 10 < n := Nat.div_lt_self (by omega) (by omega)
        simp [digitsOfAux, h, ih f2 (n / 10) (by omega) (by omega)]

/-- The recurrence `digitsOf` satisfies, with the fuel hidden. -/
theorem digitsOf_eq (n : Nat) : digitsOf n =
    if n < 10 then [natDigitChar n]
    else digitsOf (n / 10) ++ [natDigitChar (n % 10)] := by
  by_cases h : n < 10
  · simp [digitsOf, digitsOfAux, h]
  · have hd : n / 10 < n := Nat.div_lt_self (by omega) (by omega)
    have h1 : digitsOf n = digitsOfAux n (n / 10) ++ [natDigitChar (n % 10)] := by
      simp [digitsOf, digitsOfAux, h]
    rw [h1, if_neg h,
      digitsOfAux_congr n (n / 10 + 1) (n / 10) (by omega) (by omega)]
    rfl

/-- Integer formatting, as the JavaScript runtime prints integral numbers. -/
def renderInt (i : Int) : List Char :=
  if i < 0 then '-' :: digitsOf i.natAbs else digitsOf i.toNat

/-- Two spaces of indentation per nesting level. -/
def indentChars (d : Nat) : List Char := List.replicate (2 * d) ' '

mutual

/-- The text `JSON.stringify(v, null, 2)` produces for `v` at nesting depth
`d` (the depth fixes the indentation of the closing bracket; the opening
character is emitted without leading indentation, as it follows either the
start of output, a `": "`, or an element indent emitted by the caller). -/
def render : Nat → Json → List Char
  | _, Json.null => ['n', 'u', 'l', 'l']
  | _, Json.bool true => ['t', 'r', 'u', 'e']
  | _, Json.bool false => ['f', 'a', 'l', 's', 'e']
  | _, Json.num i => renderInt i
  | _, Json.str s => quoteString s
  | _, Json.arr [] => ['[', ']']
  | d, Json.arr (x :: xs) =>
    '[' :: '\n' :: renderItems (d + 1) (x :: xs) ++ '\n' :: indentChars d ++ [']']
  | _, Json.obj [] => ['\x7b', '\x7d']
  | d, Json.obj (kv :: kvs) =>
    '\x7b' :: '\n' :: renderMembers (d + 1) (kv :: kvs) ++ '\n' :: indentChars d ++ ['\x7d']

/-- Array elements, one per line, comma separated, each indented to depth `d`. -/
def renderItems : Nat → List Json → List Char
  | _, [] => []
  | d, [x] => indentChars d ++ render d x
  | d, x :: xs => indentChars d ++ render d x ++ ',' :: '\n' :: renderItems d xs

/-- Object members, one per line, comma separated, `": "` after each key. -/
def renderMembers : Nat → List (String × Json) → List Char
  | _, [] => []
  | d, [(k, v)] => indentChars d ++ quoteString k ++ ':' :: ' ' :: render d v
  | d, (k, v) :: kvs =>
    indentChars d ++ quoteString k ++ ':' :: ' ' :: render d v ++
      ',' :: '\n' :: renderMembers d kvs

end

/-- `JSON.stringify(v, null, 2)` — what `fs.writeFileSync` puts in the file. -/
def saveJson (v : Json) : String := String.mk (render 0 v)

/-! ## Parsing

Modelled from the spec: `load(path) -> Schema` reads the schema file and
"fails with `MalformedSchema` if the underlying content is not valid
structured data".  The reader in the source is `require(generatedIdlPath)`
(generateIdl.js line 56), which parses the file as JSON; the recursive-descent
parser below follows the JSON grammar, restricted to integral number literals
(see `Json.num`) and to scalar-valued `\u` escapes, the forms the schema
pipeline produces. -/

/-- The insignificant whitespace JSON allows between tokens. -/
def isWsChar (c : Char) : Bool := c = ' ' || c = '\n' || c = '\t' || c = '\x0d'

/-- Drop leading insignificant whitespace. -/
def skipWs : List Char → List Char
  | [] => []
  | c :: rest => if isWsChar c then skipWs rest else c :: rest

/-- Expect the literal tail `cs` (used for `null`, `true`, `false`). -/
def parseLit : List Char → List Char → Option (List Char)
  | [], s => some s
  | _ :: _, [] => none
  | c :: cs, x :: s => if x = c then parseLit cs s else none

/-- Numeric value of a decimal digit character. -/
def digitVal (c : Char) : Nat := c.toNat - 48

/-- Consume decimal digits, accumulating their value. -/
def parseDigitsAux : List Char → Nat → Nat × List Char
  | [], acc => (acc, [])
  | c :: rest, acc =>
    if c.isDigit then parseDigitsAux rest (10 * acc + digitVal c) else (acc, c :: rest)

/-- A decimal natural number literal: at least one digit. -/
def parseNatNum : List Char → Option (Nat × List Char)
  | [] => none
  | c :: rest => if c.isDigit then some (parseDigitsAux rest (digitVal c)) else none

/-- Numeric value of a hex digit character, either case. -/
def hexVal (c : Char) : Option Nat :=
  if '0' ≤ c ∧ c ≤ '9' then some (c.toNat - 48)
  else if 'a' ≤ c ∧ c ≤ 'f' then some (c.toNat - 87)
  else if 'A' ≤ c ∧ c ≤ 'F' then some (c.toNat - 55)
  else none

/-- The single-character escapes of the JSON grammar. -/
def decodeEscape (e : Char) : Option Char :=
  if e = '"' then some '"'
  else if e = '\\' then some '\\'
  else if e = '/' then some '/'
  else if e = 'b' then some '\x08'
  else if e = 'f' then some '\x0c'
  else if e = 'n' then some '\x0a'
  else if e = 'r' then some '\x0d'
  else if e = 't' then some '\x09'
  else none

/-- The body of a string literal, after the opening quote: characters up to
the closing quote, with escapes decoded.  A `\u` escape naming a surrogate
code unit has no counterpart in this model of strings and is rejected. -/
def parseStringBody : List Char → Option (List Char × List Char)
  | [] => none
  | c :: rest =>
    if c = '"' then some ([], rest)
    else if c = '\\' then
      match rest with
      | [] => none
      | e :: rest2 =>
        if e = 'u' then
          match rest2 with
          | h1 :: h2 :: h3 :: h4 :: rest3 =>
            match hexVal h1, hexVal h2, hexVal h3, hexVal h4 with
            | some a, some b, some c2, some d2 =>
              let n := ((a * 16 + b) * 16 + c2) * 16 + d2
              if n.isValidChar then
                (parseStringBody rest3).map (fun p => (Char.ofNat n :: p.1, p.2))
              else none
            | _, _, _, _ => none
          | _ => none
        else
          match decodeEscape e with
          | some c2 => (parseStringBody rest2).map (fun p => (c2 :: p.1, p.2))
          | none => none
    else (parseStringBody rest).map (fun p => (c :: p.1, p.2))

/-- Assignment of one member into an accumulating object, as building a
JavaScript object from parsed members does: an existing key keeps its
position and takes the later value, a new key is appended. -/
def insertField : List (String × Json) → String → Json → List (String × Json)
  | [], k, v => [(k, v)]
  | (k', v') :: rest, k, v =>
    if k' = k then (k', v) :: rest else (k', v') :: insertField rest k v

/-- `JSON.parse` materializes members left to right into one object, so a
repeated key keeps its first position and last value. -/
def dedupFields (kvs : List (String × Json)) : List (String × Json) :=
  kvs.foldl (fun acc kv => insertField acc kv.1 kv.2) []

mutual

/-- One JSON value, preceded by optional whitespace.  The fuel only bounds
nesting; `parseJson` passes enough for any input of the given length. -/
def parseValue : Nat → List Char → Option (Json × List Char)
  | 0, _ => none
  | fuel + 1, s =>
    match skipWs s with
    | [] => none
    | c :: rest =>
      if c = 'n' then (parseLit ['u', 'l', 'l'] rest).map (fun r => (Json.null, r))
      else if c = 't' then (parseLit ['r', 'u', 'e'] rest).map (fun r => (Json.bool true, r))
      else if c = 'f' then (parseLit ['a', 'l', 's', 'e'] rest).map (fun r => (Json.bool false, r))
      else if c = '"' then
        (parseStringBody rest).map (fun p => (Json.str (String.mk p.1), p.2))
      else if c = '-' then
        (parseNatNum rest).map (fun p => (Json.num (-(p.1 : Int)), p.2))
      else if c.isDigit then
        (parseNatNum (c :: rest)).map (fun p => (Json.num (p.1 : Int), p.2))
      else if c = '[' then
        match skipWs rest with
        | ']' :: rest2 => some (Json.arr [], rest2)
        | s2 => (parseItems fuel s2).map (fun p => (Json.arr p.1, p.2))
      else if c = '\x7b' then
        match skipWs rest with
        | '\x7d' :: rest2 => some (Json.obj [], rest2)
        | s2 => (parseMembers fuel s2).map (fun p => (Json.obj (dedupFields p.1), p.2))
      else none

/-- One or more array elements, consuming the closing `]`. -/
def parseItems : Nat → List Char → Option (List Json × List Char)
  | 0, _ => none
  | fuel + 1, s =>
    match parseValue fuel s with
    | none => none
    | some (v, r) =>
      match skipWs r with
      | ',' :: r2 =>
        match parseItems fuel r2 with
        | some (vs, r3) => some (v :: vs, r3)
        | none => none
      | ']' :: r2 => some ([v], r2)
      | _ => none

/-- One or more object members, consuming the closing brace. -/
def parseMembers : Nat → List Char → Option (List (String × Json) × List Char)
  | 0, _ => none
  | fuel + 1, s =>
    match skipWs s with
    | '"' :: r0 =>
      match parseStringBody r0 with
      | some (kcs, r1) =>
        match skipWs r1 with
        | ':' :: r2 =>
          match parseValue fuel r2 with
          | some (v, r3) =>
            match skipWs r3 with
            | ',' :: r4 =>
              match parseMembers fuel r4 with
              | some (kvs, r5) => some ((String.mk kcs, v) :: kvs, r5)
              | none => none
            | '\x7d' :: r4 => some ([(String.mk kcs, v)], r4)
            | _ => none
          | none => none
        | _ => none
      | none => none
    | _ => none

end

/-- `JSON.parse` of a whole document: one value, optional trailing
whitespace, nothing else.  The fuel `length + 1` suffices because every
nesting level consumes at least one character. -/
def parseJson (s : String) : Option Json :=
  match parseValue (s.data.length + 1) s.data with
  | some (v, r) => if skipWs r = [] then some v else none
  | none => none

end Json

namespace GenerateIdl

/-! ## `idl/generateIdl.js`

The patch step `mutateIdl` (lines 53–164): it loads `<idlDir>/phoenix.json`,
appends one argument to every instruction whose name appears in one of eleven
literal name groups, and writes the file back with two-space pretty printing.
-/

/-- `const PROGRAM_NAME = "phoenix";` (generateIdl.js line 8). -/
def PROGRAM_NAME : String := "phoenix"

/-- `path.join(idlDir, PROGRAM_NAME + ".json")` — the file `mutateIdl` reads
and overwrites.  `idlDir` is the directory holding both scripts. -/
def generatedIdlPath : String := "idl/" ++ PROGRAM_NAME ++ ".json"

/-- An appended argument of shape `{ name, type: { defined } }`. -/
def argDefined (n t : String) : Json :=
  Json.obj [("name", Json.str n), ("type", Json.obj [("defined", Json.str t)])]

/-- The eleven `if` blocks of `mutateIdl`, in source order: the instruction
names each block tests for, paired with the argument object it pushes. -/
def patchTable : List (List String × Json) :=
  [ (["ReduceOrder", "ReduceOrderWithFreeFunds"],
      argDefined "params" "ReduceOrderParams"),
    (["CancelMulitpleOrdersById", "CancelMulitpleOrdersByIdWithFreeFunds"],
      argDefined "params" "CancelMulitpleOrdersByIdParams"),
    (["PlaceLimitOrder", "PlaceLimitOrderWithFreeFunds", "Swap", "SwapWithFreeFunds"],
      argDefined "orderPacket" "OrderPacket"),
    (["PlaceMultiplePostOnlyOrders", "PlaceMultiplePostOnlyOrdersWithFreeFunds"],
      argDefined "multipleOrderPacket" "MultipleOrderPacket"),
    (["CancelUpTo", "CancelUpToWithFreeFunds", "ForceCancelOrders"],
      argDefined "params" "CancelUpToParams"),
    (["DepositFunds"], argDefined "depositFundsParams" "DepositParams"),
    (["WithdrawFunds"], argDefined "withdrawFundsParams" "WithdrawParams"),
    (["ChangeSeatStatus"], argDefined "approvalStatus" "SeatApprovalStatus"),
    (["ChangeMarketStatus"], argDefined "marketStatus" "MarketStatus"),
    (["InitializeMarket"], argDefined "initializeParams" "InitializeParams"),
    (["NameSuccessor"],
      Json.obj [("name", Json.str "successor"), ("type", Json.str "publicKey")]) ]

/-- All instruction names tested by some `if` block. -/
def coveredNames : List String := patchTable.flatMap Prod.fst

/-- One `if` block of `mutateIdl` acting on one instruction:
`if (instruction.name === n1 || ...) instruction.args.push(arg)`.
Reading `.name` off `null` throws (`Except.error`); off any other non-object
it yields `undefined`, which matches no literal name.  When the name matches,
`instruction.args.push(arg)` throws unless `args` is an array. -/
def applyRule (names : List String) (arg : Json) (ins : Json) : Except Unit Json :=
  match ins with
  | Json.null => Except.error ()
  | Json.obj kvs =>
    match Json.getField kvs "name" with
    | some (Json.str s) =>
      if s ∈ names then
        match Json.getField kvs "args" with
        | some (Json.arr xs) =>
          Except.ok (Json.obj (Json.setField kvs "args" (Json.arr (xs ++ [arg]))))
        | _ => Except.error ()
      else Except.ok ins
    | _ => Except.ok ins
  | _ => Except.ok ins

/-- The body of the `for (const instruction of idl.instructions)` loop: the
eleven `if` blocks applied in source order to one instruction. -/
def patchInstruction (ins : Json) : Except Unit Json :=
  patchTable.foldlM (fun cur r => applyRule r.1 r.2 cur) ins

/-- The loop over the instruction sequence, stopping at the first thrown
error (an uncaught exception aborts the script before the file is written). -/
def mapPatch : List Json → Except Unit (List Json)
  | [] => Except.ok []
  | x :: xs => do
    let y ← patchInstruction x
    let ys ← mapPatch xs
    Except.ok (y :: ys)

/-- `mutateIdl` on the parsed schema value (lines 56–162).
`for (const instruction of idl.instructions)` throws a `TypeError` when
`idl.instructions` is not iterable: absent, `null`, a boolean, a number, or a
plain object.  A string is iterable — iterating it yields its one-character
strings, none of which is an object, so nothing is patched and the value is
left unchanged. -/
def mutateIdl (idl : Json) : Except Unit Json :=
  match idl with
  | Json.obj kvs =>
    match Json.getField kvs "instructions" with
    | some (Json.arr xs) => do
      let xs' ← mapPatch xs
      Except.ok (Json.obj (Json.setField kvs "instructions" (Json.arr xs')))
    | some (Json.str _) => Except.ok idl
    | _ => Except.error ()
  | _ => Except.error ()

end GenerateIdl

namespace Json

/-! ## Round trip: what the serializer writes, the parser reads back.

The lemmas below establish `parseJson (saveJson v) = some v` for every
well-formed value (distinct keys in every object), which is the substance of
the spec's round-trip stability property. -/

/-- The character after a rendered value never extends a number literal. -/
def noDigitHead : List Char → Bool
  | [] => true
  | c :: _ => !c.isDigit

theorem natDigitChar_isDigit (n : Nat) (h : n < 10) : (natDigitChar n).isDigit = true := by
  interval_cases n <;> decide

theorem digitVal_natDigitChar (n : Nat) (h : n < 10) : digitVal (natDigitChar n) = n := by
  interval_cases n <;> decide

theorem digitsOf_all_digit (n : Nat) : ∀ c ∈ digitsOf n, c.isDigit = true := by
  induction n using Nat.strong_induction_on with
  | _ n ih =>
    rw [digitsOf_eq]
    by_cases h : n < 10
    · simp [h]
      exact natDigitChar_isDigit n h
    · have hd : n / 10 < n := Nat.div_lt_self (by omega) (by omega)
      simp [h]
      intro c hc
      rcases hc with hc | hc
      · exact ih (n / 10) hd c hc
      · rw [hc]
        exact natDigitChar_isDigit (n % 10) (Nat.mod_lt n (by omega))

theorem digitsOf_ne_nil (n : Nat) : digitsOf n ≠ [] := by
  rw [digitsOf_eq]
  by_cases h : n < 10 <;> simp [h]

/-- Value accumulated by reading digit characters left to right. -/
def digitsVal (acc : Nat) (ds : List Char) : Nat :=
  ds.foldl (fun a c => 10 * a + digitVal c) acc

theorem digitsVal_append_singleton (acc : Nat) (ds : List Char) (c : Char) :
    digitsVal acc (ds ++ [c]) = 10 * digitsVal acc ds + digitVal c := by
  simp [digitsVal, List.foldl_append]

theorem digitsVal_digitsOf (n : Nat) : ∀ acc,
    digitsVal acc (digitsOf n) = acc * 10 ^ (digitsOf n).length + n := by
  induction n using Nat.strong_induction_on with
  | _ n ih =>
    intro acc
    rw [digitsOf_eq]
    by_cases h : n < 10
    · simp [h, digitsVal, digitVal_natDigitChar n h]
      ring
    · have hd : n / 10 < n := Nat.div_lt_self (by omega) (by omega)
      rw [if_neg h, digitsVal_append_singleton,
        ih (n / 10) hd acc, digitVal_natDigitChar (n % 10) (Nat.mod_lt n (by omega))]
      simp [List.length_append, Nat.pow_succ]
      ring_nf
      omega

theorem parseDigitsAux_spec (ds : List Char) : ∀ rest acc,
    (∀ c ∈ ds, c.isDigit = true) → noDigitHead rest = true →
    parseDigitsAux (ds ++ rest) acc = (digitsVal acc ds, rest) := by
  induction ds with
  | nil =>
    intro rest acc _ hr
    cases rest with
    | nil => simp [parseDigitsAux, digitsVal]
    | cons c r =>
      simp [noDigitHead] at hr
      simp [parseDigitsAux, hr, digitsVal]
  | cons d ds ih =>
    intro rest acc hd hr
    have hdig : d.isDigit = true := hd d (by simp)
    simp only [List.cons_append, parseDigitsAux, hdig, if_pos]
    rw [show ds.append rest = ds ++ rest from rfl,
      ih rest (10 * acc + digitVal d) (fun c hc => hd c (by simp [hc])) hr]
    simp [digitsVal]

theorem parseNatNum_digitsOf (n : Nat) (rest : List Char) (hr : noDigitHead rest = true) :
    parseNatNum (digitsOf n ++ rest) = some (n, rest) := by
  obtain ⟨c, ds, hds⟩ : ∃ c ds, digitsOf n = c :: ds := by
    cases h : digitsOf n with
    | nil => exact absurd h (digitsOf_ne_nil n)
    | cons c ds => exact ⟨c, ds, rfl⟩
  have hall := digitsOf_all_digit n
  rw [hds] at hall
  have hval : digitsVal 0 (digitsOf n) = n := by
    have := digitsVal_digitsOf n 0
    simpa using this
  rw [hds] at hval
  have hc : c.isDigit = true := hall c (by simp)
  simp only [hds, List.cons_append, parseNatNum, hc, if_pos]
  rw [parseDigitsAux_spec ds rest (digitVal c) (fun x hx => hall x (by simp [hx])) hr]
  have : digitsVal (digitVal c) ds = n := by
    simpa [digitsVal] using hval
  rw [this]

end Json

namespace Json

theorem hexVal_hexDigit (k : Nat) (h : k < 16) : hexVal (hexDigit k) = some k := by
  interval_cases k <;> decide

theorem parseStringBody_closing (rest : List Char) :
    parseStringBody ('"' :: rest) = some ([], rest) := by
  rw [parseStringBody.eq_def]
  simp

theorem parseStringBody_lit (c : Char) (rest : List Char) (hq : c ≠ '"')
    (hb : c ≠ '\\') : parseStringBody (c :: rest) =
    (parseStringBody rest).map (fun p => (c :: p.1, p.2)) := by
  rw [parseStringBody.eq_def]
  simp [hq, hb]

theorem parseStringBody_esc (e c2 : Char) (rest : List Char) (hu : e ≠ 'u')
    (he : decodeEscape e = some c2) : parseStringBody ('\\' :: e :: rest) =
    (parseStringBody rest).map (fun p => (c2 :: p.1, p.2)) := by
  rw [parseStringBody.eq_def]
  simp [hu, he]

theorem parseStringBody_uesc (h1 h2 h3 h4 : Char) (a b x y : Nat) (rest : List Char)
    (ha : hexVal h1 = some a) (hb : hexVal h2 = some b) (hx : hexVal h3 = some x)
    (hy : hexVal h4 = some y)
    (hvalid : (((a * 16 + b) * 16 + x) * 16 + y).isValidChar) :
    parseStringBody ('\\' :: 'u' :: h1 :: h2 :: h3 :: h4 :: rest) =
    (parseStringBody rest).map
      (fun p => (Char.ofNat (((a * 16 + b) * 16 + x) * 16 + y) :: p.1, p.2)) := by
  rw [parseStringBody.eq_def]
  simp [ha, hb, hx, hy, hvalid]

theorem parseStringBody_escape (cs : List Char) : ∀ rest,
    parseStringBody (cs.flatMap escapeChar ++ '"' :: rest) = some (cs, rest) := by
  induction cs with
  | nil => intro rest; simp [parseStringBody_closing]
  | cons c cs ih =>
    intro rest
    rw [List.flatMap_cons, List.append_assoc]
    by_cases h1 : c = '"'
    · subst h1
      rw [show escapeChar '"' = ['\\', '"'] from by decide]
      rw [List.cons_append, List.cons_append, List.nil_append,
        parseStringBody_esc '"' '"' _ (by decide) (by decide), ih]
      rfl
    by_cases h2 : c = '\\'
    · subst h2
      rw [show escapeChar '\\' = ['\\', '\\'] from by decide]
      rw [List.cons_append, List.cons_append, List.nil_append,
        parseStringBody_esc '\\' '\\' _ (by decide) (by decide), ih]
      rfl
    by_cases h3 : c = '\x08'
    · subst h3
      rw [show escapeChar '\x08' = ['\\', 'b'] from by decide]
      rw [List.cons_append, List.cons_append, List.nil_append,
        parseStringBody_esc 'b' '\x08' _ (by decide) (by decide), ih]
      rfl
    by_cases h4 : c = '\x09'
    · subst h4
      rw [show escapeChar '\x09' = ['\\', 't'] from by decide]
      rw [List.cons_append, List.cons_append, List.nil_append,
        parseStringBody_esc 't' '\x09' _ (by decide) (by decide), ih]
      rfl
    by_cases h5 : c = '\x0a'
    · subst h5
      rw [show escapeChar '\x0a' = ['\\', 'n'] from by decide]
      rw [List.cons_append, List.cons_append, List.nil_append,
        parseStringBody_esc 'n' '\x0a' _ (by decide) (by decide), ih]
      rfl
    by_cases h6 : c = '\x0c'
    · subst h6
      rw [show escapeChar '\x0c' = ['\\', 'f'] from by decide]
      rw [List.cons_append, List.cons_append, List.nil_append,
        parseStringBody_esc 'f' '\x0c' _ (by decide) (by decide), ih]
      rfl
    by_cases h7 : c = '\x0d'
    · subst h7
      rw [show escapeChar '\x0d' = ['\\', 'r'] from by decide]
      rw [List.cons_append, List.cons_append, List.nil_append,
        parseStringBody_esc 'r' '\x0d' _ (by decide) (by decide), ih]
      rfl
    by_cases h8 : c.toNat < 32
    · have hlo : c.toNat / 16 < 16 := by omega
      have hhi : c.toNat % 16 < 16 := by omega
      have hn : ((0 * 16 + 0) * 16 + c.toNat / 16) * 16 + c.toNat % 16 = c.toNat := by
        omega
      have hvalid : (((0 * 16 + 0) * 16 + c.toNat / 16) * 16 + c.toNat % 16).isValidChar := by
        rw [hn]
        simp [Nat.isValidChar]
        omega
      rw [show escapeChar c =
          ['\\', 'u', '0', '0', hexDigit (c.toNat / 16), hexDigit (c.toNat % 16)] from by
        simp [escapeChar, h1, h2, h3, h4, h5, h6, h7, h8]]
      rw [List.cons_append, List.cons_append, List.cons_append, List.cons_append,
        List.cons_append, List.cons_append, List.nil_append,
        parseStringBody_uesc '0' '0' _ _ 0 0 (c.toNat / 16) (c.toNat % 16) _
          (by decide) (by decide) (hexVal_hexDigit _ hlo) (hexVal_hexDigit _ hhi) hvalid,
        ih]
      have hn2 : c.toNat / 16 * 16 + c.toNat % 16 = c.toNat := by omega
      simp [hn2, Char.ofNat_toNat]
    · rw [show escapeChar c = [c] from by
        simp [escapeChar, h1, h2, h3, h4, h5, h6, h7, h8]]
      rw [List.cons_append, List.nil_append, parseStringBody_lit c _ h1 h2, ih]
      rfl

end Json

namespace Json

theorem skipWs_replicate_space (n : Nat) (s : List Char) :
    skipWs (List.replicate n ' ' ++ s) = skipWs s := by
  induction n with
  | zero => simp
  | succ n ih => simp [List.replicate_succ, skipWs, isWsChar, ih]

theorem skipWs_indent (d : Nat) (s : List Char) :
    skipWs (indentChars d ++ s) = skipWs s :=
  skipWs_replicate_space (2 * d) s

theorem skipWs_cons_of_ws (c : Char) (s : List Char) (h : isWsChar c = true) :
    skipWs (c :: s) = skipWs s := by
  simp [skipWs, h]

theorem skipWs_cons_of_not_ws (c : Char) (s : List Char) (h : isWsChar c = false) :
    skipWs (c :: s) = c :: s := by
  simp [skipWs, h]

/-- A digit character is never some other given non-digit character. -/
theorem isDigit_ne (c x : Char) (h : c.isDigit = true) (hx : x.isDigit = false) :
    c ≠ x := by
  intro he
  rw [he] at h
  rw [h] at hx
  cases hx

theorem isDigit_not_ws (c : Char) (h : c.isDigit = true) : isWsChar c = false := by
  by_cases h1 : c = ' '
  · subst h1; exact absurd h (by decide)
  by_cases h2 : c = '\n'
  · subst h2; exact absurd h (by decide)
  by_cases h3 : c = '\t'
  · subst h3; exact absurd h (by decide)
  by_cases h4 : c = '\x0d'
  · subst h4; exact absurd h (by decide)
  simp [isWsChar, h1, h2, h3, h4]

mutual

/-- Node count of a JSON value; it bounds the parser fuel a document needs. -/
def jsize : Json → Nat
  | Json.null => 1
  | Json.bool _ => 1
  | Json.num _ => 1
  | Json.str _ => 1
  | Json.arr xs => 1 + jsizeList xs
  | Json.obj kvs => 1 + jsizeFields kvs

def jsizeList : List Json → Nat
  | [] => 0
  | x :: xs => 1 + jsize x + jsizeList xs

def jsizeFields : List (String × Json) → Nat
  | [] => 0
  | (_, v) :: kvs => 1 + jsize v + jsizeFields kvs

end

theorem jsize_pos : ∀ v : Json, 1 ≤ jsize v := by
  intro v
  cases v <;> simp [jsize]

/-- No key occurs twice. -/
def distinctKeys : List String → Bool
  | [] => true
  | k :: ks => (!ks.contains k) && distinctKeys ks

mutual

/-- Well-formed JSON value: every object has distinct keys.  Exactly the
values a JavaScript object graph can denote, hence exactly the possible
outputs of `JSON.parse` and inputs of `JSON.stringify`. -/
def wfJson : Json → Bool
  | Json.null => true
  | Json.bool _ => true
  | Json.num _ => true
  | Json.str _ => true
  | Json.arr xs => wfJsonList xs
  | Json.obj kvs => distinctKeys (kvs.map Prod.fst) && wfJsonFields kvs

def wfJsonList : List Json → Bool
  | [] => true
  | x :: xs => wfJson x && wfJsonList xs

def wfJsonFields : List (String × Json) → Bool
  | [] => true
  | (_, v) :: kvs => wfJson v && wfJsonFields kvs

end

theorem insertField_notmem (acc : List (String × Json)) (k : String) (v : Json)
    (h : ∀ kv ∈ acc, kv.1 ≠ k) : insertField acc k v = acc ++ [(k, v)] := by
  induction acc with
  | nil => simp [insertField]
  | cons kv2 rest ih =>
    obtain ⟨k2, v2⟩ := kv2
    have hk2 : k2 ≠ k := h (k2, v2) (by simp)
    simp [insertField, hk2]
    exact ih (fun kv hkv => h kv (by simp [hkv]))

theorem dedup_go (kvs : List (String × Json)) : ∀ acc,
    distinctKeys (kvs.map Prod.fst) = true →
    (∀ kv ∈ kvs, ∀ kv2 ∈ acc, kv2.1 ≠ kv.1) →
    kvs.foldl (fun acc kv => insertField acc kv.1 kv.2) acc = acc ++ kvs := by
  induction kvs with
  | nil => intro acc _ _; simp
  | cons kv rest ih =>
    intro acc hdist hacc
    obtain ⟨k, v⟩ := kv
    simp only [List.map_cons, distinctKeys, Bool.and_eq_true, Bool.not_eq_true] at hdist
    obtain ⟨hcont, hdist2⟩ := hdist
    have hnotin : ∀ kv3 ∈ rest, kv3.1 ≠ k := by
      intro kv3 h3 he
      obtain ⟨k3, v3⟩ := kv3
      simp only at he
      subst he
      have hmem : k3 ∈ rest.map Prod.fst := List.mem_map_of_mem Prod.fst h3
      simp [List.elem_eq_mem, hmem] at hcont
    rw [List.foldl_cons]
    rw [insertField_notmem acc k v (fun kv2 h2 => hacc (k, v) (by simp) kv2 h2)]
    rw [ih (acc ++ [(k, v)]) hdist2 ?_]
    · simp
    · intro kv3 h3 kv2 h2
      rcases List.mem_append.mp h2 with h2 | h2
      · exact hacc kv3 (by simp [h3]) kv2 h2
      · simp at h2
        rw [h2]
        exact fun he => hnotin kv3 h3 he.symm

theorem dedupFields_eq_self (kvs : List (String × Json))
    (h : distinctKeys (kvs.map Prod.fst) = true) : dedupFields kvs = kvs := by
  have := dedup_go kvs [] h (by simp)
  simpa [dedupFields] using this

end Json

namespace Json

theorem renderInt_ne_nil (i : Int) : renderInt i ≠ [] := by
  unfold renderInt
  by_cases h : i < 0
  · simp [h]
  · simp [h, digitsOf_ne_nil]

/-- The first character of any rendered value: never whitespace, never a
closing bracket, so the surrounding grammar cannot mistake it. -/
theorem render_head (d : Nat) (v : Json) : ∃ c t, render d v = c :: t ∧
    isWsChar c = false ∧ c ≠ ']' ∧ c ≠ '\x7d' := by
  cases v with
  | null => exact ⟨'n', ['u', 'l', 'l'], by simp [render], by decide, by decide, by decide⟩
  | bool b =>
    cases b with
    | true => exact ⟨'t', ['r', 'u', 'e'], by simp [render], by decide, by decide, by decide⟩
    | false =>
      exact ⟨'f', ['a', 'l', 's', 'e'], by simp [render], by decide, by decide, by decide⟩
  | num i =>
    by_cases h : i < 0
    · exact ⟨'-', digitsOf i.natAbs, by simp [render, renderInt, h],
        by decide, by decide, by decide⟩
    · obtain ⟨c, ds, hds⟩ : ∃ c ds, digitsOf i.toNat = c :: ds := by
        cases hh : digitsOf i.toNat with
        | nil => exact absurd hh (digitsOf_ne_nil _)
        | cons c ds => exact ⟨c, ds, rfl⟩
      have hdig : c.isDigit = true := by
        have := digitsOf_all_digit i.toNat
        rw [hds] at this
        exact this c (by simp)
      exact ⟨c, ds, by simp [render, renderInt, h, hds],
        isDigit_not_ws c hdig, isDigit_ne c ']' hdig (by decide),
        isDigit_ne c '\x7d' hdig (by decide)⟩
  | str s =>
    exact ⟨'"', s.data.flatMap escapeChar ++ ['"'], by simp [render, quoteString],
      by decide, by decide, by decide⟩
  | arr xs =>
    cases xs with
    | nil => exact ⟨'[', [']'], by simp [render], by decide, by decide, by decide⟩
    | cons x xs =>
      exact ⟨'[', '\n' :: renderItems (d + 1) (x :: xs) ++ '\n' :: indentChars d ++ [']'],
        by simp [render], by decide, by decide, by decide⟩
  | obj kvs =>
    cases kvs with
    | nil => exact ⟨'\x7b', ['\x7d'], by simp [render], by decide, by decide, by decide⟩
    | cons kv kvs =>
      exact ⟨'\x7b',
        '\n' :: renderMembers (d + 1) (kv :: kvs) ++ '\n' :: indentChars d ++ ['\x7d'],
        by simp [render], by decide, by decide, by decide⟩

mutual

theorem jsize_le_render : ∀ d v, jsize v ≤ (render d v).length
  | _, Json.null => by simp [render, jsize]
  | _, Json.bool b => by cases b <;> simp [render, jsize]
  | _, Json.num i => by
    have h1 : renderInt i ≠ [] := renderInt_ne_nil i
    have h2 : 1 ≤ (renderInt i).length := by
      cases hh : renderInt i with
      | nil => exact absurd hh h1
      | cons c ds => simp
    simpa [render, jsize] using h2
  | _, Json.str s => by simp [render, jsize, quoteString]
  | _, Json.arr [] => by simp [render, jsize, jsizeList]
  | d, Json.arr (x :: xs) => by
    have h1 := jsizeList_le_renderItems (d + 1) (x :: xs) (by omega)
    simp only [render, jsize, List.length_cons, List.length_append, indentChars,
      List.length_replicate]
    omega
  | _, Json.obj [] => by simp [render, jsize, jsizeFields]
  | d, Json.obj (kv :: kvs) => by
    have h1 := jsizeFields_le_renderMembers (d + 1) (kv :: kvs) (by omega)
    simp only [render, jsize, List.length_cons, List.length_append, indentChars,
      List.length_replicate]
    omega

theorem jsizeList_le_renderItems : ∀ d xs, 1 ≤ d → jsizeList xs ≤ (renderItems d xs).length
  | _, [], _ => by simp [jsizeList]
  | d, [x], hd => by
    have h1 := jsize_le_render d x
    simp only [renderItems, jsizeList, jsize, indentChars, List.length_append,
      List.length_replicate]
    omega
  | d, x :: y :: ys, hd => by
    have h1 := jsize_le_render d x
    have h2 := jsizeList_le_renderItems d (y :: ys) hd
    simp only [renderItems, jsizeList, jsize, indentChars, List.length_append,
      List.length_replicate, List.length_cons]
    simp only [jsizeList] at h2
    omega

theorem jsizeFields_le_renderMembers :
    ∀ d kvs, 1 ≤ d → jsizeFields kvs ≤ (renderMembers d kvs).length
  | _, [], _ => by simp [jsizeFields]
  | d, [(k, v)], hd => by
    have h1 := jsize_le_render d v
    simp only [renderMembers, jsizeFields, jsize, quoteString, indentChars,
      List.length_append, List.length_replicate, List.length_cons]
    omega
  | d, (k, v) :: kv2 :: kvs, hd => by
    have h1 := jsize_le_render d v
    have h2 := jsizeFields_le_renderMembers d (kv2 :: kvs) hd
    simp only [renderMembers, jsizeFields, jsize, quoteString, indentChars,
      List.length_append, List.length_replicate, List.length_cons]
    simp only [jsizeFields] at h2
    omega

end

end Json

namespace Json

theorem skipWs_idem (s : List Char) : skipWs (skipWs s) = skipWs s := by
  induction s with
  | nil => simp [skipWs]
  | cons c rest ih =>
    by_cases h : isWsChar c
    · simp [skipWs, h, ih]
    · simp [skipWs, h]

theorem parseValue_congr (fuel : Nat) (s1 s2 : List Char) (h : skipWs s1 = skipWs s2) :
    parseValue fuel s1 = parseValue fuel s2 := by
  cases fuel with
  | zero => rfl
  | succ fuel =>
    rw [parseValue.eq_2, parseValue.eq_2, h]

theorem parseItems_congr (fuel : Nat) (s1 s2 : List Char) (h : skipWs s1 = skipWs s2) :
    parseItems fuel s1 = parseItems fuel s2 := by
  cases fuel with
  | zero => rfl
  | succ fuel =>
    rw [parseItems.eq_2, parseItems.eq_2, parseValue_congr fuel s1 s2 h]

theorem parseMembers_congr (fuel : Nat) (s1 s2 : List Char) (h : skipWs s1 = skipWs s2) :
    parseMembers fuel s1 = parseMembers fuel s2 := by
  cases fuel with
  | zero => rfl
  | succ fuel =>
    rw [parseMembers.eq_2, parseMembers.eq_2, h]

theorem renderItems_cons_decomp (d : Nat) (x : Json) (xs : List Json) :
    ∃ u, renderItems d (x :: xs) = indentChars d ++ (render d x ++ u) := by
  cases xs with
  | nil => exact ⟨[], by simp [renderItems]⟩
  | cons y ys =>
    exact ⟨',' :: '\n' :: renderItems d (y :: ys), by simp [renderItems]⟩

theorem renderMembers_cons_decomp (d : Nat) (k : String) (v : Json)
    (kvs : List (String × Json)) : ∃ u, renderMembers d ((k, v) :: kvs) =
    indentChars d ++ (quoteString k ++ ':' :: ' ' :: (render d v ++ u)) := by
  cases kvs with
  | nil => exact ⟨[], by simp [renderMembers]⟩
  | cons kv2 kvs =>
    exact ⟨',' :: '\n' :: renderMembers d (kv2 :: kvs), by simp [renderMembers]⟩

theorem skipWs_renderItems_head (d : Nat) (x : Json) (xs : List Json) (T : List Char) :
    ∃ c2 t2, isWsChar c2 = false ∧ c2 ≠ ']' ∧ c2 ≠ '\x7d' ∧
      skipWs (renderItems d (x :: xs) ++ T) = c2 :: t2 := by
  obtain ⟨u, hu⟩ := renderItems_cons_decomp d x xs
  obtain ⟨c2, t2, hh, hws, h1, h2⟩ := render_head d x
  refine ⟨c2, t2 ++ (u ++ T), hws, h1, h2, ?_⟩
  rw [hu, List.append_assoc, skipWs_indent, List.append_assoc, hh, List.cons_append,
    skipWs_cons_of_not_ws c2 _ hws]

theorem skipWs_renderMembers_head (d : Nat) (k : String) (v : Json)
    (kvs : List (String × Json)) (T : List Char) :
    ∃ t2, skipWs (renderMembers d ((k, v) :: kvs) ++ T) =
      '"' :: (k.data.flatMap escapeChar ++ '"' :: t2) := by
  obtain ⟨u, hu⟩ := renderMembers_cons_decomp d k v kvs
  refine ⟨':' :: ' ' :: (render d v ++ u) ++ T, ?_⟩
  rw [hu, List.append_assoc, skipWs_indent, quoteString]
  have hq : ∀ s, skipWs ('"' :: s) = '"' :: s := fun s =>
    skipWs_cons_of_not_ws _ _ (by decide)
  simp [hq, List.append_assoc]

theorem stringMk_data (s : String) : String.mk s.data = s := by
  cases s
  rfl

end Json

namespace Json

theorem noDigitHead_comma (s : List Char) : noDigitHead (',' :: s) = true := rfl

theorem noDigitHead_newline (s : List Char) : noDigitHead ('\n' :: s) = true := rfl


/-- Joint statement for the fuel induction: rendered values, rendered item
lists, and rendered member lists are parsed back exactly, leaving the tail
untouched, whenever the fuel covers the node count and the tail cannot be
mistaken for more digits. -/
theorem parse_render_all (fuel : Nat) :
    (∀ v d rest, jsize v ≤ fuel → wfJson v = true → noDigitHead rest = true →
      parseValue fuel (render d v ++ rest) = some (v, rest)) ∧
    (∀ xs d rest, xs ≠ [] → jsizeList xs ≤ fuel → wfJsonList xs = true →
      noDigitHead rest = true →
      parseItems fuel (renderItems (d + 1) xs ++ '\n' :: indentChars d ++ ']' :: rest) =
        some (xs, rest)) ∧
    (∀ kvs d rest, kvs ≠ [] → jsizeFields kvs ≤ fuel → wfJsonFields kvs = true →
      noDigitHead rest = true →
      parseMembers fuel
          (renderMembers (d + 1) kvs ++ '\n' :: indentChars d ++ '\x7d' :: rest) =
        some (kvs, rest)) := by
  induction fuel with
  | zero =>
    refine ⟨?_, ?_, ?_⟩
    · intro v d rest hs _ _
      have := jsize_pos v
      omega
    · intro xs d rest hne hs _ _
      cases xs with
      | nil => exact absurd rfl hne
      | cons x xs =>
        simp only [jsizeList] at hs
        omega
    · intro kvs d rest hne hs _ _
      cases kvs with
      | nil => exact absurd rfl hne
      | cons kv kvs =>
        obtain ⟨k, v⟩ := kv
        simp only [jsizeFields] at hs
        omega
  | succ fuel ih =>
    obtain ⟨ihP, ihQ, ihR⟩ := ih
    refine ⟨?_, ?_, ?_⟩
    · -- a rendered value parses back
      intro v d rest hs hwf hr
      cases v with
      | null =>
        simp [render, parseValue.eq_2, skipWs, isWsChar, parseLit]
      | bool b =>
        cases b <;> simp [render, parseValue.eq_2, skipWs, isWsChar, parseLit]
      | str s =>
        rw [show render d (Json.str s) ++ rest =
            '"' :: (s.data.flatMap escapeChar ++ '"' :: rest) from by
          simp [render, quoteString]]
        rw [parseValue.eq_2]
        have hq : skipWs ('"' :: (s.data.flatMap escapeChar ++ '"' :: rest)) =
            '"' :: (s.data.flatMap escapeChar ++ '"' :: rest) :=
          skipWs_cons_of_not_ws _ _ (by decide)
        simp [hq, parseStringBody_escape, stringMk_data]
      | num i =>
        by_cases hneg : i < 0
        · rw [show render d (Json.num i) ++ rest = '-' :: (digitsOf i.natAbs ++ rest) from by
            simp [render, renderInt, hneg]]
          rw [parseValue.eq_2]
          have hq : skipWs ('-' :: (digitsOf i.natAbs ++ rest)) =
              '-' :: (digitsOf i.natAbs ++ rest) :=
            skipWs_cons_of_not_ws _ _ (by decide)
          simp [hq, parseNatNum_digitsOf i.natAbs rest hr]
          rw [abs_of_neg hneg]
          ring
        · obtain ⟨c0, ds, hds⟩ : ∃ c0 ds, digitsOf i.toNat = c0 :: ds := by
            cases hh : digitsOf i.toNat with
            | nil => exact absurd hh (digitsOf_ne_nil _)
            | cons c0 ds => exact ⟨c0, ds, rfl⟩
          have hdig : c0.isDigit = true := by
            have := digitsOf_all_digit i.toNat
            rw [hds] at this
            exact this c0 (by simp)
          rw [show render d (Json.num i) ++ rest = c0 :: (ds ++ rest) from by
            simp [render, renderInt, hneg, hds]]
          rw [parseValue.eq_2]
          have hq : skipWs (c0 :: (ds ++ rest)) = c0 :: (ds ++ rest) :=
            skipWs_cons_of_not_ws _ _ (isDigit_not_ws c0 hdig)
          have hpn : parseNatNum (c0 :: (ds ++ rest)) = some (i.toNat, rest) := by
            rw [show c0 :: (ds ++ rest) = digitsOf i.toNat ++ rest from by simp [hds]]
            exact parseNatNum_digitsOf i.toNat rest hr
          have hi : ((i.toNat : Nat) : Int) = i := Int.toNat_of_nonneg (by omega)
          simp [hq, isDigit_ne c0 'n' hdig (by decide),
            isDigit_ne c0 't' hdig (by decide), isDigit_ne c0 'f' hdig (by decide),
            isDigit_ne c0 '"' hdig (by decide), isDigit_ne c0 '-' hdig (by decide),
            hdig, hpn, hi]
      | arr xs =>
        cases xs with
        | nil =>
          simp [render, parseValue.eq_2, skipWs, isWsChar]
        | cons x xs =>
          rw [show render d (Json.arr (x :: xs)) ++ rest =
              '[' :: '\n' :: (renderItems (d + 1) (x :: xs) ++
                ('\n' :: indentChars d ++ ']' :: rest)) from by
            simp [render]]
          rw [parseValue.eq_2]
          have hq : skipWs ('[' :: '\n' :: (renderItems (d + 1) (x :: xs) ++
              ('\n' :: indentChars d ++ ']' :: rest))) =
              '[' :: '\n' :: (renderItems (d + 1) (x :: xs) ++
                ('\n' :: indentChars d ++ ']' :: rest)) :=
            skipWs_cons_of_not_ws _ _ (by decide)
          obtain ⟨c2, t2, hws, hnb, hnb2, hsk⟩ :=
            skipWs_renderItems_head (d + 1) x xs ('\n' :: indentChars d ++ ']' :: rest)
          have hsk2 : skipWs ('\n' :: (renderItems (d + 1) (x :: xs) ++
              ('\n' :: indentChars d ++ ']' :: rest))) = c2 :: t2 := by
            rw [skipWs_cons_of_ws '\n' _ (by decide), hsk]
          have hitems : parseItems fuel (c2 :: t2) = some (x :: xs, rest) := by
            rw [parseItems_congr fuel (c2 :: t2)
              (renderItems (d + 1) (x :: xs) ++ ('\n' :: indentChars d ++ ']' :: rest))
              (by rw [skipWs_cons_of_not_ws c2 _ hws, hsk])]
            have := ihQ (x :: xs) d rest (by simp)
              (by simp only [jsize] at hs; omega) (by simpa [wfJson] using hwf) hr
            simpa [List.append_assoc] using this
          split
          · next heq =>
            rw [hq] at heq
            cases heq
          · next c3 rest3 heq =>
            rw [hq] at heq
            injection heq with hc3 hrest3
            subst hc3
            subst hrest3
            rw [if_neg (by decide : ¬('[' : Char) = 'n'),
              if_neg (by decide : ¬('[' : Char) = 't'),
              if_neg (by decide : ¬('[' : Char) = 'f'),
              if_neg (by decide : ¬('[' : Char) = '"'),
              if_neg (by decide : ¬('[' : Char) = '-'),
              if_neg (by decide : ¬('[' : Char).isDigit = true),
              if_pos (rfl : ('[' : Char) = '[')]
            split
            · next rest2 heq2 =>
              rw [hsk2] at heq2
              injection heq2 with h12 _
              exact absurd h12 hnb
            · next =>
              rw [hsk2, hitems]
              rfl
      | obj kvs =>
        cases kvs with
        | nil =>
          simp [render, parseValue.eq_2, skipWs, isWsChar]
        | cons kv kvs =>
          obtain ⟨k, v⟩ := kv
          simp only [wfJson, Bool.and_eq_true] at hwf
          obtain ⟨hdk, hwff⟩ := hwf
          rw [show render d (Json.obj ((k, v) :: kvs)) ++ rest =
              '\x7b' :: '\n' :: (renderMembers (d + 1) ((k, v) :: kvs) ++
                ('\n' :: indentChars d ++ '\x7d' :: rest)) from by
            simp [render]]
          rw [parseValue.eq_2]
          have hq : skipWs ('\x7b' :: '\n' :: (renderMembers (d + 1) ((k, v) :: kvs) ++
              ('\n' :: indentChars d ++ '\x7d' :: rest))) =
              '\x7b' :: '\n' :: (renderMembers (d + 1) ((k, v) :: kvs) ++
                ('\n' :: indentChars d ++ '\x7d' :: rest)) :=
            skipWs_cons_of_not_ws _ _ (by decide)
          obtain ⟨t2, hsk⟩ :=
            skipWs_renderMembers_head (d + 1) k v kvs ('\n' :: indentChars d ++ '\x7d' :: rest)
          have hsk2 : skipWs ('\n' :: (renderMembers (d + 1) ((k, v) :: kvs) ++
              ('\n' :: indentChars d ++ '\x7d' :: rest))) =
              '"' :: (k.data.flatMap escapeChar ++ '"' :: t2) := by
            rw [skipWs_cons_of_ws '\n' _ (by decide), hsk]
          have hmem : parseMembers fuel
              ('"' :: (k.data.flatMap escapeChar ++ '"' :: t2)) =
              some ((k, v) :: kvs, rest) := by
            rw [parseMembers_congr fuel ('"' :: (k.data.flatMap escapeChar ++ '"' :: t2))
              (renderMembers (d + 1) ((k, v) :: kvs) ++
                ('\n' :: indentChars d ++ '\x7d' :: rest))
              (by rw [skipWs_cons_of_not_ws '"' _ (by decide), hsk])]
            have := ihR ((k, v) :: kvs) d rest (by simp)
              (by simp only [jsize] at hs; omega) hwff hr
            simpa [List.append_assoc] using this
          split
          · next heq =>
            rw [hq] at heq
            cases heq
          · next c3 rest3 heq =>
            rw [hq] at heq
            injection heq with hc3 hrest3
            subst hc3
            subst hrest3
            rw [if_neg (by decide : ¬('\x7b' : Char) = 'n'),
              if_neg (by decide : ¬('\x7b' : Char) = 't'),
              if_neg (by decide : ¬('\x7b' : Char) = 'f'),
              if_neg (by decide : ¬('\x7b' : Char) = '"'),
              if_neg (by decide : ¬('\x7b' : Char) = '-'),
              if_neg (by decide : ¬('\x7b' : Char).isDigit = true),
              if_neg (by decide : ¬('\x7b' : Char) = '['),
              if_pos (rfl : ('\x7b' : Char) = '\x7b')]
            split
            · next rest2 heq2 =>
              rw [hsk2] at heq2
              injection heq2 with h12 _
              exact absurd h12 (by decide)
            · next =>
              rw [hsk2, hmem]
              simp [dedupFields_eq_self ((k, v) :: kvs) hdk]
    · -- a rendered item list parses back
      intro xs d rest hne hs hwf hr
      cases xs with
      | nil => exact absurd rfl hne
      | cons x xs0 =>
        simp only [wfJsonList, Bool.and_eq_true] at hwf
        obtain ⟨hwx, hwxs⟩ := hwf
        cases xs0 with
        | nil =>
          rw [show renderItems (d + 1) [x] ++ '\n' :: indentChars d ++ ']' :: rest =
              indentChars (d + 1) ++
                (render (d + 1) x ++ ('\n' :: (indentChars d ++ ']' :: rest))) from by
            simp [renderItems]]
          rw [parseItems.eq_2]
          rw [parseValue_congr fuel _
            (render (d + 1) x ++ ('\n' :: (indentChars d ++ ']' :: rest)))
            (by rw [skipWs_indent])]
          rw [ihP x (d + 1) ('\n' :: (indentChars d ++ ']' :: rest))
            (by simp only [jsizeList] at hs; omega) hwx (noDigitHead_newline _)]
          have hskT : skipWs ('\n' :: (indentChars d ++ ']' :: rest)) = ']' :: rest := by
            rw [skipWs_cons_of_ws '\n' _ (by decide), skipWs_indent,
              skipWs_cons_of_not_ws ']' _ (by decide)]
          simp [hskT]
        | cons y ys =>
          rw [show renderItems (d + 1) (x :: y :: ys) ++ '\n' :: indentChars d ++ ']' :: rest =
              indentChars (d + 1) ++ (render (d + 1) x ++
                (',' :: '\n' :: (renderItems (d + 1) (y :: ys) ++
                  ('\n' :: (indentChars d ++ ']' :: rest))))) from by
            simp [renderItems]]
          rw [parseItems.eq_2]
          rw [parseValue_congr fuel _
            (render (d + 1) x ++ (',' :: '\n' :: (renderItems (d + 1) (y :: ys) ++
              ('\n' :: (indentChars d ++ ']' :: rest)))))
            (by rw [skipWs_indent])]
          rw [ihP x (d + 1) (',' :: '\n' :: (renderItems (d + 1) (y :: ys) ++
              ('\n' :: (indentChars d ++ ']' :: rest))))
            (by simp only [jsizeList] at hs; omega) hwx (noDigitHead_comma _)]
          have hsk2 : skipWs (',' :: '\n' :: (renderItems (d + 1) (y :: ys) ++
              ('\n' :: (indentChars d ++ ']' :: rest)))) =
              ',' :: '\n' :: (renderItems (d + 1) (y :: ys) ++
                ('\n' :: (indentChars d ++ ']' :: rest))) :=
            skipWs_cons_of_not_ws ',' _ (by decide)
          have hnext : parseItems fuel ('\n' :: (renderItems (d + 1) (y :: ys) ++
              ('\n' :: (indentChars d ++ ']' :: rest)))) = some (y :: ys, rest) := by
            rw [parseItems_congr fuel _
              (renderItems (d + 1) (y :: ys) ++ '\n' :: indentChars d ++ ']' :: rest)
              (by rw [skipWs_cons_of_ws '\n' _ (by decide)]; simp [List.append_assoc])]
            exact ihQ (y :: ys) d rest (by simp)
              (by simp only [jsizeList] at hs ⊢; omega) hwxs hr
          simp [hsk2, hnext]
    · -- a rendered member list parses back
      intro kvs d rest hne hs hwf hr
      cases kvs with
      | nil => exact absurd rfl hne
      | cons kv kvs0 =>
        obtain ⟨k, v⟩ := kv
        simp only [wfJsonFields, Bool.and_eq_true] at hwf
        obtain ⟨hwv, hwkvs⟩ := hwf
        cases kvs0 with
        | nil =>
          rw [show renderMembers (d + 1) [(k, v)] ++ '\n' :: indentChars d ++ '\x7d' :: rest =
              indentChars (d + 1) ++ (quoteString k ++ ':' :: ' ' ::
                (render (d + 1) v ++ ('\n' :: (indentChars d ++ '\x7d' :: rest)))) from by
            simp [renderMembers]]
          rw [parseMembers.eq_2]
          rw [show skipWs (indentChars (d + 1) ++ (quoteString k ++ ':' :: ' ' ::
              (render (d + 1) v ++ ('\n' :: (indentChars d ++ '\x7d' :: rest))))) =
              '"' :: (k.data.flatMap escapeChar ++ '"' :: (':' :: ' ' ::
                (render (d + 1) v ++ ('\n' :: (indentChars d ++ '\x7d' :: rest))))) from by
            rw [skipWs_indent, quoteString]
            have hq : ∀ s, skipWs ('"' :: s) = '"' :: s := fun s =>
              skipWs_cons_of_not_ws _ _ (by decide)
            simp [hq, List.append_assoc]]
          have hsb := parseStringBody_escape k.data (':' :: ' ' ::
            (render (d + 1) v ++ ('\n' :: (indentChars d ++ '\x7d' :: rest))))
          have hskc : skipWs (':' :: ' ' :: (render (d + 1) v ++
              ('\n' :: (indentChars d ++ '\x7d' :: rest)))) =
              ':' :: ' ' :: (render (d + 1) v ++
                ('\n' :: (indentChars d ++ '\x7d' :: rest))) :=
            skipWs_cons_of_not_ws ':' _ (by decide)
          have hpv : parseValue fuel (' ' :: (render (d + 1) v ++
              ('\n' :: (indentChars d ++ '\x7d' :: rest)))) =
              some (v, '\n' :: (indentChars d ++ '\x7d' :: rest)) := by
            rw [parseValue_congr fuel (' ' :: (render (d + 1) v ++
                ('\n' :: (indentChars d ++ '\x7d' :: rest))))
              (render (d + 1) v ++ ('\n' :: (indentChars d ++ '\x7d' :: rest)))
              (by rw [skipWs_cons_of_ws ' ' _ (by decide)])]
            exact ihP v (d + 1) ('\n' :: (indentChars d ++ '\x7d' :: rest))
              (by simp only [jsizeFields] at hs; omega) hwv (noDigitHead_newline _)
          have hskT : skipWs ('\n' :: (indentChars d ++ '\x7d' :: rest)) =
              '\x7d' :: rest := by
            rw [skipWs_cons_of_ws '\n' _ (by decide), skipWs_indent,
              skipWs_cons_of_not_ws '\x7d' _ (by decide)]
          simp [hsb, hskc, hpv, hskT, stringMk_data]
        | cons kv2 kvs =>
          rw [show renderMembers (d + 1) ((k, v) :: kv2 :: kvs) ++
              '\n' :: indentChars d ++ '\x7d' :: rest =
              indentChars (d + 1) ++ (quoteString k ++ ':' :: ' ' ::
                (render (d + 1) v ++ (',' :: '\n' ::
                  (renderMembers (d + 1) (kv2 :: kvs) ++
                    ('\n' :: (indentChars d ++ '\x7d' :: rest)))))) from by
            simp [renderMembers]]
          rw [parseMembers.eq_2]
          rw [show skipWs (indentChars (d + 1) ++ (quoteString k ++ ':' :: ' ' ::
              (render (d + 1) v ++ (',' :: '\n' ::
                (renderMembers (d + 1) (kv2 :: kvs) ++
                  ('\n' :: (indentChars d ++ '\x7d' :: rest))))))) =
              '"' :: (k.data.flatMap escapeChar ++ '"' :: (':' :: ' ' ::
                (render (d + 1) v ++ (',' :: '\n' ::
                  (renderMembers (d + 1) (kv2 :: kvs) ++
                    ('\n' :: (indentChars d ++ '\x7d' :: rest))))))) from by
            rw [skipWs_indent, quoteString]
            have hq : ∀ s, skipWs ('"' :: s) = '"' :: s := fun s =>
              skipWs_cons_of_not_ws _ _ (by decide)
            simp [hq, List.append_assoc]]
          have hsb := parseStringBody_escape k.data (':' :: ' ' ::
            (render (d + 1) v ++ (',' :: '\n' ::
              (renderMembers (d + 1) (kv2 :: kvs) ++
                ('\n' :: (indentChars d ++ '\x7d' :: rest))))))
          have hskc : skipWs (':' :: ' ' :: (render (d + 1) v ++ (',' :: '\n' ::
              (renderMembers (d + 1) (kv2 :: kvs) ++
                ('\n' :: (indentChars d ++ '\x7d' :: rest)))))) =
              ':' :: ' ' :: (render (d + 1) v ++ (',' :: '\n' ::
                (renderMembers (d + 1) (kv2 :: kvs) ++
                  ('\n' :: (indentChars d ++ '\x7d' :: rest))))) :=
            skipWs_cons_of_not_ws ':' _ (by decide)
          have hpv : parseValue fuel (' ' :: (render (d + 1) v ++ (',' :: '\n' ::
              (renderMembers (d + 1) (kv2 :: kvs) ++
                ('\n' :: (indentChars d ++ '\x7d' :: rest)))))) =
              some (v, ',' :: '\n' :: (renderMembers (d + 1) (kv2 :: kvs) ++
                ('\n' :: (indentChars d ++ '\x7d' :: rest)))) := by
            rw [parseValue_congr fuel (' ' :: (render (d + 1) v ++ (',' :: '\n' ::
                (renderMembers (d + 1) (kv2 :: kvs) ++
                  ('\n' :: (indentChars d ++ '\x7d' :: rest))))))
              (render (d + 1) v ++ (',' :: '\n' ::
                (renderMembers (d + 1) (kv2 :: kvs) ++
                  ('\n' :: (indentChars d ++ '\x7d' :: rest)))))
              (by rw [skipWs_cons_of_ws ' ' _ (by decide)])]
            exact ihP v (d + 1) (',' :: '\n' :: (renderMembers (d + 1) (kv2 :: kvs) ++
                ('\n' :: (indentChars d ++ '\x7d' :: rest))))
              (by simp only [jsizeFields] at hs; omega) hwv (noDigitHead_comma _)
          have hsk2 : skipWs (',' :: '\n' :: (renderMembers (d + 1) (kv2 :: kvs) ++
              ('\n' :: (indentChars d ++ '\x7d' :: rest)))) =
              ',' :: '\n' :: (renderMembers (d + 1) (kv2 :: kvs) ++
                ('\n' :: (indentChars d ++ '\x7d' :: rest))) :=
            skipWs_cons_of_not_ws ',' _ (by decide)
          have hnext : parseMembers fuel ('\n' :: (renderMembers (d + 1) (kv2 :: kvs) ++
              ('\n' :: (indentChars d ++ '\x7d' :: rest)))) = some (kv2 :: kvs, rest) := by
            rw [parseMembers_congr fuel _
              (renderMembers (d + 1) (kv2 :: kvs) ++ '\n' :: indentChars d ++ '\x7d' :: rest)
              (by rw [skipWs_cons_of_ws '\n' _ (by decide)]; simp [List.append_assoc])]
            exact ihR (kv2 :: kvs) d rest (by simp)
              (by simp only [jsizeFields] at hs ⊢; omega) hwkvs hr
          simp [hsb, hskc, hpv, hsk2, hnext, stringMk_data]

end Json

namespace Json

/-- What the serializer writes, the parser reads back: the round trip at the
level of whole documents, for every well-formed value. -/
theorem parseJson_saveJson (v : Json) (hwf : wfJson v = true) :
    parseJson (saveJson v) = some v := by
  have hdata : (String.mk (render 0 v)).data = render 0 v := rfl
  unfold parseJson saveJson
  rw [hdata]
  have hfuel : jsize v ≤ (render 0 v).length + 1 := by
    have := jsize_le_render 0 v
    omega
  have hP := (parse_render_all ((render 0 v).length + 1)).1 v 0 [] hfuel hwf rfl
  rw [show render 0 v ++ ([] : List Char) = render 0 v from by simp] at hP
  rw [hP]
  simp [skipWs]

end Json

namespace GenerateIdl

/-- The whole patch step at the level of file contents, as `mutateIdl` runs
end to end (generateIdl.js lines 53–164): `require` parses the schema file
(an invalid file or a failed mutation throws, and the file is not written),
the instruction loop patches it, and `fs.writeFileSync` stores it with
`JSON.stringify(idl, null, 2)`. -/
def mutateIdlFile (content : String) : Except Unit String :=
  match Json.parseJson content with
  | none => Except.error ()
  | some idl => (mutateIdl idl).map Json.saveJson

end GenerateIdl

namespace GenerateIdl

/-- The first rule whose name group contains `s`, paired with the argument
it appends.  The name groups being pairwise disjoint, "first" is "only". -/
def ruleFor (s : String) : Option Json :=
  (patchTable.find? (fun r => r.1.contains s)).map Prod.snd

theorem disjoint_patchTable :
    List.Pairwise (fun r1 r2 => ∀ n ∈ r1.1, n ∉ r2.1) patchTable := by
  decide

theorem foldl_applyRule_no_match (rules : List (List String × Json))
    (kvs : List (String × Json)) (s : String)
    (hn : Json.getField kvs "name" = some (Json.str s))
    (h : ∀ r ∈ rules, s ∉ r.1) :
    rules.foldlM (fun cur r => applyRule r.1 r.2 cur) (Json.obj kvs) =
      Except.ok (Json.obj kvs) := by
  induction rules with
  | nil => rfl
  | cons r rs ih =>
    obtain ⟨names, arg⟩ := r
    have hs : s ∉ names := h (names, arg) (by simp)
    rw [List.foldlM_cons]
    rw [show applyRule names arg (Json.obj kvs) = Except.ok (Json.obj kvs) from by
      simp [applyRule, hn, hs]]
    rw [show (Except.ok (Json.obj kvs) >>= fun cur =>
        rs.foldlM (fun cur r => applyRule r.1 r.2 cur) cur) =
        rs.foldlM (fun cur r => applyRule r.1 r.2 cur) (Json.obj kvs) from rfl]
    exact ih (fun r2 h2 => h r2 (by simp [h2]))

theorem patchInstruction_unmatched (kvs : List (String × Json)) (s : String)
    (hn : Json.getField kvs "name" = some (Json.str s))
    (hcov : s ∉ coveredNames) :
    patchInstruction (Json.obj kvs) = Except.ok (Json.obj kvs) := by
  apply foldl_applyRule_no_match patchTable kvs s hn
  intro r hr hmem
  exact hcov (by simp only [coveredNames, List.mem_flatMap]; exact ⟨r, hr, hmem⟩)

theorem foldl_applyRule_matched (pre post : List (List String × Json))
    (names : List String) (arg : Json) (kvs : List (String × Json)) (s : String)
    (xs : List Json)
    (hn : Json.getField kvs "name" = some (Json.str s))
    (ha : Json.getField kvs "args" = some (Json.arr xs))
    (hs : s ∈ names)
    (hpre : ∀ r ∈ pre, s ∉ r.1) (hpost : ∀ r ∈ post, s ∉ r.1) :
    (pre ++ (names, arg) :: post).foldlM (fun cur r => applyRule r.1 r.2 cur)
        (Json.obj kvs) =
      Except.ok (Json.obj (Json.setField kvs "args" (Json.arr (xs ++ [arg])))) := by
  rw [List.foldlM_append]
  rw [foldl_applyRule_no_match pre kvs s hn hpre]
  rw [show ((Except.ok (Json.obj kvs) : Except Unit Json) >>= fun b =>
      ((names, arg) :: post).foldlM (fun cur r => applyRule r.1 r.2 cur) b) =
      ((names, arg) :: post).foldlM (fun cur r => applyRule r.1 r.2 cur)
        (Json.obj kvs) from rfl]
  rw [List.foldlM_cons]
  rw [show applyRule names arg (Json.obj kvs) =
      Except.ok (Json.obj (Json.setField kvs "args" (Json.arr (xs ++ [arg])))) from by
    simp [applyRule, hn, hs, ha]]
  rw [show ((Except.ok (Json.obj (Json.setField kvs "args" (Json.arr (xs ++ [arg])))) :
      Except Unit Json) >>= fun b =>
      post.foldlM (fun cur r => applyRule r.1 r.2 cur) b) =
      post.foldlM (fun cur r => applyRule r.1 r.2 cur)
        (Json.obj (Json.setField kvs "args" (Json.arr (xs ++ [arg])))) from rfl]
  have hn2 : Json.getField (Json.setField kvs "args" (Json.arr (xs ++ [arg]))) "name" =
      some (Json.str s) := by
    rw [Json.getField_setField_ne _ _ _ _ (by decide)]
    exact hn
  exact foldl_applyRule_no_match post _ s hn2 hpost

theorem mem_covered_of_ruleFor (s : String) (arg : Json) (hr : ruleFor s = some arg) :
    s ∈ coveredNames := by
  unfold ruleFor at hr
  cases hfind : patchTable.find? (fun r => r.1.contains s) with
  | none => rw [hfind] at hr; cases hr
  | some r =>
    have hmem : r ∈ patchTable := List.mem_of_find?_eq_some hfind
    have hpred := List.find?_some hfind
    have hsmem : s ∈ r.1 := by simpa [List.elem_eq_mem] using hpred
    simp only [coveredNames, List.mem_flatMap]
    exact ⟨r, hmem, hsmem⟩

theorem patchInstruction_matched (kvs : List (String × Json)) (s : String)
    (xs : List Json) (arg : Json)
    (hn : Json.getField kvs "name" = some (Json.str s))
    (ha : Json.getField kvs "args" = some (Json.arr xs))
    (hr : ruleFor s = some arg) :
    patchInstruction (Json.obj kvs) =
      Except.ok (Json.obj (Json.setField kvs "args" (Json.arr (xs ++ [arg])))) := by
  unfold ruleFor at hr
  cases hfind : patchTable.find? (fun r => r.1.contains s) with
  | none => rw [hfind] at hr; cases hr
  | some r =>
    rw [hfind] at hr
    obtain ⟨names, argX⟩ := r
    simp only [Option.map] at hr
    injection hr with hr
    subst hr
    rw [List.find?_eq_some] at hfind
    obtain ⟨hpred, pre, post, htab, hpre⟩ := hfind
    have hs : s ∈ names := by simpa [List.elem_eq_mem] using hpred
    have hpre2 : ∀ r2 ∈ pre, s ∉ r2.1 := by
      intro r2 h2 hmem2
      have := hpre r2 h2
      simp [List.elem_eq_mem] at this
      exact this hmem2
    have hdisj := disjoint_patchTable
    rw [htab] at hdisj
    rw [List.pairwise_append] at hdisj
    obtain ⟨_, hmidpost, _⟩ := hdisj
    rw [List.pairwise_cons] at hmidpost
    have hpost : ∀ r2 ∈ post, s ∉ r2.1 := fun r2 h2 => hmidpost.1 r2 h2 s hs
    unfold patchInstruction
    rw [htab]
    exact foldl_applyRule_matched pre post names argX kvs s xs hn ha hs hpre2 hpost

end GenerateIdl

namespace GenerateIdl

theorem applyRule_frame (names : List String) (arg : Json) (cur next : Json)
    (h : applyRule names arg cur = Except.ok next) :
    ∀ k, k ≠ "args" → Json.jsGet next k = Json.jsGet cur k := by
  intro k hk
  cases cur with
  | null => simp [applyRule] at h
  | obj kvs =>
    simp only [applyRule] at h
    split at h
    · split at h
      · split at h
        · injection h with h
          subst h
          simp [Json.jsGet, Json.getField_setField_ne _ _ _ _ hk]
        · simp at h
      · injection h with h
        subst h
        rfl
    · injection h with h
      subst h
      rfl
  | bool b => injection h with h; subst h; rfl
  | num i => injection h with h; subst h; rfl
  | str s => injection h with h; subst h; rfl
  | arr xs => injection h with h; subst h; rfl

theorem foldl_applyRule_frame (rules : List (List String × Json)) :
    ∀ cur next, rules.foldlM (fun c r => applyRule r.1 r.2 c) cur = Except.ok next →
    ∀ k, k ≠ "args" → Json.jsGet next k = Json.jsGet cur k := by
  induction rules with
  | nil =>
    intro cur next h k hk
    injection h with h
    subst h
    rfl
  | cons r rs ih =>
    intro cur next h k hk
    rw [List.foldlM_cons] at h
    cases happ : applyRule r.1 r.2 cur with
    | error e => rw [happ] at h; simp [Bind.bind, Except.bind] at h
    | ok mid =>
      rw [happ] at h
      rw [show ((Except.ok mid : Except Unit Json) >>= fun c =>
          rs.foldlM (fun c r => applyRule r.1 r.2 c) c) =
          rs.foldlM (fun c r => applyRule r.1 r.2 c) mid from rfl] at h
      rw [ih mid next h k hk]
      exact applyRule_frame r.1 r.2 cur mid happ k hk

theorem patchInstruction_frame (ins out : Json)
    (h : patchInstruction ins = Except.ok out) :
    ∀ k, k ≠ "args" → Json.jsGet out k = Json.jsGet ins k :=
  foldl_applyRule_frame patchTable ins out h

theorem mapPatch_length (xs : List Json) : ∀ ys, mapPatch xs = Except.ok ys →
    ys.length = xs.length := by
  induction xs with
  | nil =>
    intro ys h
    injection h with h
    subst h
    rfl
  | cons x xs ih =>
    intro ys h
    simp only [mapPatch] at h
    cases hp : patchInstruction x with
    | error e => rw [hp] at h; simp [Bind.bind, Except.bind] at h
    | ok y =>
      rw [hp] at h
      cases hm : mapPatch xs with
      | error e =>
        rw [hm] at h
        simp [Bind.bind, Except.bind] at h
      | ok ys2 =>
        rw [hm] at h
        simp only [Bind.bind, Except.bind] at h
        injection h with h
        subst h
        simp [ih ys2 hm]

theorem mapPatch_get (xs : List Json) : ∀ ys, mapPatch xs = Except.ok ys →
    ∀ i (hi : i < xs.length) (hi2 : i < ys.length),
      patchInstruction (xs.get ⟨i, hi⟩) = Except.ok (ys.get ⟨i, hi2⟩) := by
  induction xs with
  | nil =>
    intro ys h i hi hi2
    simp at hi
  | cons x xs ih =>
    intro ys h i hi hi2
    simp only [mapPatch] at h
    cases hp : patchInstruction x with
    | error e => rw [hp] at h; simp [Bind.bind, Except.bind] at h
    | ok y =>
      rw [hp] at h
      cases hm : mapPatch xs with
      | error e =>
        rw [hm] at h
        simp [Bind.bind, Except.bind] at h
      | ok ys2 =>
        rw [hm] at h
        simp only [Bind.bind, Except.bind] at h
        injection h with h
        subst h
        cases i with
        | zero => simpa using hp
        | succ i =>
          simp only [List.get_cons_succ]
          exact ih ys2 hm i (by simpa using hi) (by simpa using hi2)

end GenerateIdl

namespace GenerateIdl

/-! ## The extraction orchestrator (`main`, generateIdl.js lines 24–51)

`main` spawns the `shank` extraction binary and wires two handlers onto the
child process: `.on("error", ...)` (spawn failure: the binary could not be
started) logs a diagnostic and calls `process.exit(1)`; `.on("exit", ...)`
calls `mutateIdl()` — with no inspection of the exit code. -/

/-- An event the spawned extraction subprocess delivers to the orchestrator. -/
inductive ShankEvent where
  | spawnError (message : String)
  | exited (code : Int)

/-- What one handler invocation does: whether the patch step `mutateIdl()`
is invoked, and whether `process.exit` is called with some status. -/
structure HandlerOutcome where
  patchInvoked : Bool
  exitCalled : Option Nat
  deriving DecidableEq

/-- The handler wiring of `main`: translated from the two `.on(...)`
registrations (lines 36–47). -/
def handleShankEvent : ShankEvent → HandlerOutcome
  | ShankEvent.spawnError _ => { patchInvoked := false, exitCalled := some 1 }
  | ShankEvent.exited _ => { patchInvoked := true, exitCalled := none }

end GenerateIdl

namespace GenerateClient

/-! ## `idl/generateClient.js` -/

/-- `const PROGRAM_NAME = "phoenix_v1";` (generateClient.js line 7). -/
def PROGRAM_NAME : String := "phoenix_v1"

/-- `path.join(idlDir, PROGRAM_NAME + ".json")` — the schema file the client
generation driver reads (line 17).  `idlDir = __dirname` in both scripts, so
it is the same directory `generateIdl.js` addresses. -/
def generatedIdlPath : String := "idl/" ++ PROGRAM_NAME ++ ".json"

/-- One step of the straight-line control flow of the driver. -/
inductive JsEvent where
  | logErr (message : String)
  | logOut (message : String)
  | processExit (code : Nat)
  | referenceError (ident : String)

/-- Outcome of a straight-line event sequence: the first `process.exit`
terminates the process with that status, the first evaluation of an
undefined identifier raises a ReferenceError, and otherwise the sequence
runs to its end. -/
inductive Outcome where
  | exited (code : Nat)
  | crashed (ident : String)
  | ranToEnd
  deriving DecidableEq

def runScript : List JsEvent → Outcome
  | [] => Outcome.ranToEnd
  | JsEvent.processExit c :: _ => Outcome.exited c
  | JsEvent.referenceError i :: _ => Outcome.crashed i
  | _ :: rest => runScript rest

/-- The body of `generateTypeScriptSDK` (lines 15–23) when the generator
library succeeds: log the target, render the SDK, log `"Success!"`, then
`process.exit(0)`. -/
def generateTypeScriptSDKEvents : List JsEvent :=
  [ JsEvent.logErr "Generating TypeScript SDK to %s",
    JsEvent.logErr "Success!",
    JsEvent.processExit 0 ]

/-- `main` (lines 9–13): `generateTypeScriptSDK().then(() => conoole.log("done"))`.
The continuation runs only after `generateTypeScriptSDK` resolves; its body
evaluates the undefined identifier `conoole`, which would raise a
ReferenceError. -/
def mainSuccessEvents : List JsEvent :=
  generateTypeScriptSDKEvents ++ [JsEvent.referenceError "conoole"]

end GenerateClient

namespace GenerateIdl

theorem findRule_of_mem (t : List (List String × Json)) (names : List String)
    (arg : Json) (s : String)
    (hdisj : List.Pairwise (fun r1 r2 => ∀ n ∈ r1.1, n ∉ r2.1) t)
    (hmem : (names, arg) ∈ t) (hs : s ∈ names) :
    (t.find? (fun r => r.1.contains s)).map Prod.snd = some arg := by
  induction t with
  | nil => cases hmem
  | cons r t ih =>
    rw [List.pairwise_cons] at hdisj
    obtain ⟨hhead, htail⟩ := hdisj
    rcases List.mem_cons.mp hmem with hEq | hmem2
    · subst hEq
      rw [List.find?_cons_of_pos _ (by simpa [List.elem_eq_mem] using hs)]
      rfl
    · have hnot : s ∉ r.1 := by
        intro hin
        exact hhead (names, arg) hmem2 s hin hs
      rw [List.find?_cons_of_neg _ (by simpa [List.elem_eq_mem] using hnot)]
      exact ih htail hmem2

theorem ruleFor_of_mem (names : List String) (arg : Json) (s : String)
    (hmem : (names, arg) ∈ patchTable) (hs : s ∈ names) :
    ruleFor s = some arg :=
  findRule_of_mem patchTable names arg s disjoint_patchTable hmem hs

theorem ruleFor_of_covered (s : String) (hcov : s ∈ coveredNames) :
    ∃ arg, ruleFor s = some arg := by
  simp only [coveredNames, List.mem_flatMap] at hcov
  obtain ⟨r, hmem, hs⟩ := hcov
  exact ⟨r.2, ruleFor_of_mem r.1 r.2 s hmem hs⟩

end GenerateIdl

/-- A small well-formed schema used as concrete input by the witnesses: one
`DepositFunds` instruction with an empty argument list, plus a `types`
collection. -/
def exampleSchema : Json :=
  Json.obj
    [("instructions", Json.arr
      [Json.obj [("name", Json.str "DepositFunds"), ("args", Json.arr [])]]),
     ("types", Json.arr [])]

/-- C1 (counterexample): applying the patcher twice is not the same as
applying it once.  On a schema holding a `DepositFunds` instruction with an
empty argument list, the second application pushes the `depositFundsParams`
argument again: `mutateIdl` has no idempotence guard, so it appends a
duplicate instead of leaving the instruction alone. -/
theorem c1_counterexample :
    ¬ ((GenerateIdl.mutateIdl exampleSchema).bind GenerateIdl.mutateIdl =
      GenerateIdl.mutateIdl exampleSchema) := by
  decide

/-- C1 (amended): one application of the patch loop appends the matching
rule's argument at the tail of a matched instruction, and a second
application appends the same argument again — the patcher is not
idempotent, and an instruction already carrying an argument with the
rule's target name still receives a duplicate. -/
theorem c1_amended_second_application_appends_again
    (kvs : List (String × Json)) (s : String) (xs : List Json) (arg : Json)
    (hn : Json.getField kvs "name" = some (Json.str s))
    (ha : Json.getField kvs "args" = some (Json.arr xs))
    (hr : GenerateIdl.ruleFor s = some arg) :
    ∃ kvs2,
      GenerateIdl.patchInstruction (Json.obj kvs) = Except.ok (Json.obj kvs2) ∧
      Json.getField kvs2 "args" = some (Json.arr (xs ++ [arg])) ∧
      ∃ kvs3,
        GenerateIdl.patchInstruction (Json.obj kvs2) = Except.ok (Json.obj kvs3) ∧
        Json.getField kvs3 "args" = some (Json.arr (xs ++ [arg] ++ [arg])) := by
  refine ⟨Json.setField kvs "args" (Json.arr (xs ++ [arg])),
    GenerateIdl.patchInstruction_matched kvs s xs arg hn ha hr,
    Json.getField_setField_self kvs "args" _, ?_⟩
  have hn2 : Json.getField (Json.setField kvs "args" (Json.arr (xs ++ [arg]))) "name" =
      some (Json.str s) := by
    rw [Json.getField_setField_ne _ _ _ _ (by decide)]
    exact hn
  exact ⟨Json.setField (Json.setField kvs "args" (Json.arr (xs ++ [arg]))) "args"
      (Json.arr (xs ++ [arg] ++ [arg])),
    GenerateIdl.patchInstruction_matched _ s (xs ++ [arg]) arg hn2
      (Json.getField_setField_self kvs "args" _) hr,
    Json.getField_setField_self _ "args" _⟩

/-- C1 (witness): the amended statement at a concrete instruction. -/
theorem c1_amended_witness :
    ∃ kvs2,
      GenerateIdl.patchInstruction
        (Json.obj [("name", Json.str "DepositFunds"), ("args", Json.arr [])]) =
        Except.ok (Json.obj kvs2) ∧
      Json.getField kvs2 "args" = some (Json.arr
        ([] ++ [GenerateIdl.argDefined "depositFundsParams" "DepositParams"])) ∧
      ∃ kvs3,
        GenerateIdl.patchInstruction (Json.obj kvs2) = Except.ok (Json.obj kvs3) ∧
        Json.getField kvs3 "args" = some (Json.arr
          ([] ++ [GenerateIdl.argDefined "depositFundsParams" "DepositParams"] ++
            [GenerateIdl.argDefined "depositFundsParams" "DepositParams"])) :=
  c1_amended_second_application_appends_again
    [("name", Json.str "DepositFunds"), ("args", Json.arr [])]
    "DepositFunds" [] (GenerateIdl.argDefined "depositFundsParams" "DepositParams")
    (by decide) (by decide) (by decide)

/-- C2 (counterexample): the orchestrator invokes the patch step on a
subprocess exit with status 1 — an unsuccessful extraction — so the claim
that patching happens only after a successful extraction exit is false. -/
theorem c2_counterexample :
    (GenerateIdl.handleShankEvent (GenerateIdl.ShankEvent.exited 1)).patchInvoked = true ∧
    (1 : Int) ≠ 0 := by
  decide

/-- C2 (amended): the `exit` handler invokes `mutateIdl()` whatever the exit
code is — the code is never inspected; only a spawn error (the extraction
binary could not be started) skips the patch step, logging and terminating
with status 1. -/
theorem c2_amended_patch_on_any_exit :
    (∀ code : Int,
      GenerateIdl.handleShankEvent (GenerateIdl.ShankEvent.exited code) =
        { patchInvoked := true, exitCalled := none }) ∧
    (∀ msg : String,
      GenerateIdl.handleShankEvent (GenerateIdl.ShankEvent.spawnError msg) =
        { patchInvoked := false, exitCalled := some 1 }) :=
  ⟨fun _ => rfl, fun _ => rfl⟩

/-- C3: the path the patch step writes (`idl/phoenix.json`, from
`PROGRAM_NAME = "phoenix"` in generateIdl.js) is not the path the client
generation driver reads (`idl/phoenix_v1.json`, from
`PROGRAM_NAME = "phoenix_v1"` in generateClient.js): the two constants
disagree, so the generator does not consume the patcher's output file. -/
theorem c3_generator_reads_other_path :
    GenerateIdl.generatedIdlPath = "idl/phoenix.json" ∧
    GenerateClient.generatedIdlPath = "idl/phoenix_v1.json" ∧
    GenerateClient.generatedIdlPath ≠ GenerateIdl.generatedIdlPath := by
  decide

/-- C4 (counterexample): a schema file whose document has an `instructions`
array but no `types` field loads and patches successfully — the loader
never looks at `types`, so the claim that loading fails without it is
false.  (The file also round-trips unchanged, no instruction matching any
rule.) -/
theorem c4_counterexample :
    GenerateIdl.mutateIdlFile "\x7b\n  \"instructions\": []\n\x7d" =
      Except.ok "\x7b\n  \"instructions\": []\n\x7d" := by
  decide

/-- C4 (amended): loading and patching fails when the content is not valid
JSON or when the top-level `instructions` field is absent; when
`instructions` is an array whose elements the loop accepts, it succeeds —
regardless of whether a `types` field is present, which is never examined. -/
theorem c4_amended_types_not_required :
    (∀ s : String, Json.parseJson s = none →
      GenerateIdl.mutateIdlFile s = Except.error ()) ∧
    (∀ kvs : List (String × Json), Json.getField kvs "instructions" = none →
      GenerateIdl.mutateIdl (Json.obj kvs) = Except.error ()) ∧
    (∀ (kvs : List (String × Json)) (xs ys : List Json),
      Json.getField kvs "instructions" = some (Json.arr xs) →
      GenerateIdl.mapPatch xs = Except.ok ys →
      GenerateIdl.mutateIdl (Json.obj kvs) =
        Except.ok (Json.obj (Json.setField kvs "instructions" (Json.arr ys)))) := by
  refine ⟨?_, ?_, ?_⟩
  · intro s h
    simp [GenerateIdl.mutateIdlFile, h]
  · intro kvs h
    simp [GenerateIdl.mutateIdl, h]
  · intro kvs xs ys h1 h2
    simp only [GenerateIdl.mutateIdl, h1, h2]
    rfl

/-- C4 (witness): the amended statement at concrete inputs — unparsable
content fails, a document without `instructions` fails, and a document
with (only) an empty `instructions` array succeeds. -/
theorem c4_amended_witness :
    GenerateIdl.mutateIdlFile "notjson" = Except.error () ∧
    GenerateIdl.mutateIdl (Json.obj [("types", Json.arr [])]) = Except.error () ∧
    GenerateIdl.mutateIdl (Json.obj [("instructions", Json.arr [])]) =
      Except.ok (Json.obj (Json.setField [("instructions", Json.arr [])]
        "instructions" (Json.arr []))) :=
  ⟨c4_amended_types_not_required.1 "notjson" (by decide),
   c4_amended_types_not_required.2.1 [("types", Json.arr [])] (by decide),
   c4_amended_types_not_required.2.2 [("instructions", Json.arr [])] [] []
     (by decide) (by decide)⟩

/-- C5: for every instruction matched by a patch rule, the appended argument
lands at index `len(original arguments)` — always last — and the original
arguments stay in place as a prefix, in their original order. -/
theorem c5_appended_argument_is_last
    (kvs : List (String × Json)) (s : String) (xs : List Json)
    (names : List String) (arg : Json)
    (hmem : (names, arg) ∈ GenerateIdl.patchTable) (hs : s ∈ names)
    (hn : Json.getField kvs "name" = some (Json.str s))
    (ha : Json.getField kvs "args" = some (Json.arr xs)) :
    ∃ kvs2,
      GenerateIdl.patchInstruction (Json.obj kvs) = Except.ok (Json.obj kvs2) ∧
      Json.getField kvs2 "args" = some (Json.arr (xs ++ [arg])) ∧
      (xs ++ [arg]).length = xs.length + 1 ∧
      (xs ++ [arg]).take xs.length = xs ∧
      (xs ++ [arg]).getLast? = some arg := by
  have hr := GenerateIdl.ruleFor_of_mem names arg s hmem hs
  exact ⟨Json.setField kvs "args" (Json.arr (xs ++ [arg])),
    GenerateIdl.patchInstruction_matched kvs s xs arg hn ha hr,
    Json.getField_setField_self kvs "args" _,
    by simp, by simp, by simp⟩

/-- C5 (witness): the statement at a concrete `DepositFunds` instruction
that already carries one argument. -/
theorem c5_witness :
    ∃ kvs2,
      GenerateIdl.patchInstruction (Json.obj [("name", Json.str "DepositFunds"),
        ("args", Json.arr [Json.str "first"])]) = Except.ok (Json.obj kvs2) ∧
      Json.getField kvs2 "args" = some (Json.arr ([Json.str "first"] ++
        [GenerateIdl.argDefined "depositFundsParams" "DepositParams"])) ∧
      ([Json.str "first"] ++
        [GenerateIdl.argDefined "depositFundsParams" "DepositParams"]).length =
        [Json.str "first"].length + 1 ∧
      ([Json.str "first"] ++
        [GenerateIdl.argDefined "depositFundsParams" "DepositParams"]).take
        [Json.str "first"].length = [Json.str "first"] ∧
      ([Json.str "first"] ++
        [GenerateIdl.argDefined "depositFundsParams" "DepositParams"]).getLast? =
        some (GenerateIdl.argDefined "depositFundsParams" "DepositParams") :=
  c5_appended_argument_is_last
    [("name", Json.str "DepositFunds"), ("args", Json.arr [Json.str "first"])]
    "DepositFunds" [Json.str "first"] ["DepositFunds"]
    (GenerateIdl.argDefined "depositFundsParams" "DepositParams")
    (by decide) (by decide) (by decide) (by decide)

/-- C6: an instruction whose name matches no rule of the patch table passes
through the patcher completely unchanged. -/
theorem c6_unmatched_instruction_unchanged
    (kvs : List (String × Json)) (s : String)
    (hn : Json.getField kvs "name" = some (Json.str s))
    (hcov : s ∉ GenerateIdl.coveredNames) :
    GenerateIdl.patchInstruction (Json.obj kvs) = Except.ok (Json.obj kvs) :=
  GenerateIdl.patchInstruction_unmatched kvs s hn hcov

/-- C6 (witness): a concrete uncovered instruction is returned as it came. -/
theorem c6_witness :
    GenerateIdl.patchInstruction (Json.obj [("name", Json.str "Log"),
      ("args", Json.arr [Json.str "first"])]) =
      Except.ok (Json.obj [("name", Json.str "Log"),
        ("args", Json.arr [Json.str "first"])]) :=
  c6_unmatched_instruction_unchanged
    [("name", Json.str "Log"), ("args", Json.arr [Json.str "first"])]
    "Log" (by decide) (by decide)

/-- C7: the name groups of the patch table are pairwise disjoint, so at most
one rule matches any instruction name, and every covered name receives
exactly one appended argument — the one of its unique rule — in a single
application of the patcher. -/
theorem c7_rules_disjoint_and_unique_append :
    List.Pairwise (fun r1 r2 => ∀ n ∈ r1.1, n ∉ r2.1) GenerateIdl.patchTable ∧
    (∀ (kvs : List (String × Json)) (s : String) (xs : List Json),
      s ∈ GenerateIdl.coveredNames →
      Json.getField kvs "name" = some (Json.str s) →
      Json.getField kvs "args" = some (Json.arr xs) →
      ∃ arg, GenerateIdl.ruleFor s = some arg ∧
        GenerateIdl.patchInstruction (Json.obj kvs) =
          Except.ok (Json.obj (Json.setField kvs "args" (Json.arr (xs ++ [arg]))))) := by
  refine ⟨GenerateIdl.disjoint_patchTable, ?_⟩
  intro kvs s xs hcov hn ha
  obtain ⟨arg, hr⟩ := GenerateIdl.ruleFor_of_covered s hcov
  exact ⟨arg, hr, GenerateIdl.patchInstruction_matched kvs s xs arg hn ha hr⟩

/-- C7 (witness): the unique-append part at a concrete covered name. -/
theorem c7_witness :
    ∃ arg, GenerateIdl.ruleFor "Swap" = some arg ∧
      GenerateIdl.patchInstruction (Json.obj [("name", Json.str "Swap"),
        ("args", Json.arr [])]) =
        Except.ok (Json.obj (Json.setField [("name", Json.str "Swap"),
          ("args", Json.arr [])] "args" (Json.arr ([] ++ [arg])))) :=
  c7_rules_disjoint_and_unique_append.2
    [("name", Json.str "Swap"), ("args", Json.arr [])] "Swap" []
    (by decide) (by decide) (by decide)

/-- C8: saving is canonical pretty printing with stable key order, and for
an already-canonical schema — one a JavaScript object graph can hold, i.e.
with distinct keys in every object — `save (load (save schema))` is
byte-identical to `save schema`. -/
theorem c8_save_load_save_stable (schema : Json)
    (hwf : Json.wfJson schema = true) :
    (Json.parseJson (Json.saveJson schema)).map Json.saveJson =
      some (Json.saveJson schema) := by
  rw [Json.parseJson_saveJson schema hwf]
  rfl

/-- C8 (witness): round-trip stability on the concrete example schema. -/
theorem c8_witness :
    (Json.parseJson (Json.saveJson exampleSchema)).map Json.saveJson =
      some (Json.saveJson exampleSchema) :=
  c8_save_load_save_stable exampleSchema (by decide)

/-- C9: the patcher only ever touches the `args` of instructions: the
output is the input object with only the `instructions` entry replaced,
every other top-level field (`types`, `errors`, …) is untouched, the
instruction count is preserved, and each output instruction agrees with its
input counterpart — same position — on every field other than `args`,
including `name`. -/
theorem c9_patch_touches_only_args
    (kvs : List (String × Json)) (xs : List Json) (out : Json)
    (hins : Json.getField kvs "instructions" = some (Json.arr xs))
    (h : GenerateIdl.mutateIdl (Json.obj kvs) = Except.ok out) :
    ∃ ys, GenerateIdl.mapPatch xs = Except.ok ys ∧
      out = Json.obj (Json.setField kvs "instructions" (Json.arr ys)) ∧
      ys.length = xs.length ∧
      (∀ k, k ≠ "instructions" → Json.jsGet out k = Json.getField kvs k) ∧
      (∀ i (hi : i < xs.length) (hi2 : i < ys.length), ∀ k, k ≠ "args" →
        Json.jsGet (ys.get ⟨i, hi2⟩) k = Json.jsGet (xs.get ⟨i, hi⟩) k) ∧
      (∀ i (hi : i < xs.length) (hi2 : i < ys.length),
        Json.jsGet (ys.get ⟨i, hi2⟩) "name" = Json.jsGet (xs.get ⟨i, hi⟩) "name") := by
  simp only [GenerateIdl.mutateIdl, hins] at h
  cases hm : GenerateIdl.mapPatch xs with
  | error e =>
    rw [hm] at h
    simp [Bind.bind, Except.bind] at h
  | ok ys =>
    rw [hm] at h
    simp only [Bind.bind, Except.bind] at h
    injection h with h
    subst h
    have hframe : ∀ i (hi : i < xs.length) (hi2 : i < ys.length), ∀ k, k ≠ "args" →
        Json.jsGet (ys.get ⟨i, hi2⟩) k = Json.jsGet (xs.get ⟨i, hi⟩) k := by
      intro i hi hi2 k hk
      exact GenerateIdl.patchInstruction_frame _ _
        (GenerateIdl.mapPatch_get xs ys hm i hi hi2) k hk
    refine ⟨ys, rfl, rfl, GenerateIdl.mapPatch_length xs ys hm, ?_, hframe,
      fun i hi hi2 => hframe i hi hi2 "name" (by decide)⟩
    intro k hk
    simp only [Json.jsGet]
    exact Json.getField_setField_ne kvs "instructions" k _ hk

/-- C9 (witness): the frame statement on the concrete example schema. -/
theorem c9_witness :
    ∃ ys, GenerateIdl.mapPatch
        [Json.obj [("name", Json.str "DepositFunds"), ("args", Json.arr [])]] =
        Except.ok ys ∧
      Json.obj [("instructions", Json.arr
          [Json.obj [("name", Json.str "DepositFunds"),
            ("args", Json.arr [GenerateIdl.argDefined "depositFundsParams"
              "DepositParams"])]]), ("types", Json.arr [])] =
        Json.obj (Json.setField
          [("instructions", Json.arr [Json.obj [("name", Json.str "DepositFunds"),
            ("args", Json.arr [])]]), ("types", Json.arr [])]
          "instructions" (Json.arr ys)) ∧
      ys.length = 1 := by
  obtain ⟨ys, h1, h2, h3, _⟩ := c9_patch_touches_only_args
    [("instructions", Json.arr [Json.obj [("name", Json.str "DepositFunds"),
      ("args", Json.arr [])]]), ("types", Json.arr [])]
    [Json.obj [("name", Json.str "DepositFunds"), ("args", Json.arr [])]]
    (Json.obj [("instructions", Json.arr
      [Json.obj [("name", Json.str "DepositFunds"),
        ("args", Json.arr [GenerateIdl.argDefined "depositFundsParams"
          "DepositParams"])]]), ("types", Json.arr [])])
    (by decide) (by decide)
  exact ⟨ys, h1, h2, h3⟩

/-- C10: on the success path of the client generation driver,
`process.exit(0)` inside `generateTypeScriptSDK` terminates the process
before the `.then` continuation of `main` — which would evaluate the
undefined identifier `conoole` — can run: the outcome is exit status 0, the
same as if the continuation were absent, never a ReferenceError. -/
theorem c10_exit_zero_before_continuation :
    GenerateClient.runScript GenerateClient.mainSuccessEvents =
      GenerateClient.Outcome.exited 0 ∧
    GenerateClient.runScript GenerateClient.mainSuccessEvents =
      GenerateClient.runScript GenerateClient.generateTypeScriptSDKEvents :=
  ⟨rfl, rfl⟩
